import Mathlib

/-!
go-certdist: certificate resolution and encrypted transfer

A shallow embedding of the certificate store, the domain resolver, the key
authorization check, the transfer packager, the server request handler, the
client's unpacking and post-install commands, and the validation of the
server and client configuration, followed by the properties proved about them.

Go strings and byte slices are sequences of bytes; both are modelled as
`List UInt8`. The standard library and third-party packages the program calls
(file system, PEM, X.509, JSON, zip, age, shell) are collected in a `World`
record whose fields give the outcome of each call; `filepath.Base`, `Clean`,
`Join` and `Dir` and `subtle.ConstantTimeCompare` are written out.
-/

set_option autoImplicit false

namespace Certdist

/-! ## Strings -/

/-- A Go `string` / `[]byte`: a finite sequence of bytes. -/
abbrev GoString := List UInt8

/-- The bytes of an ASCII literal. -/
def str (s : String) : GoString := s.toList.map (fun c => UInt8.ofNat c.toNat)

/-- Go `strings.Contains(s, substr)`: `substr` occurs in `s` at some offset. -/
def Contains (s substr : GoString) : Bool :=
  s.tails.any (fun t => substr.isPrefixOf t)

/-- Go `strings.HasPrefix(s, p)`. -/
def HasPrefix (s p : GoString) : Bool := p.isPrefixOf s

/-! ## Time -/

/-- A Go `time.Time` instant, as the number of nanoseconds elapsed since the
zero time (January 1, year 1, 00:00:00 UTC). -/
structure Time where
  nanos : Int
  deriving DecidableEq, Repr

namespace Time

/-- The zero value of `time.Time`. -/
def zero : Time := ⟨0⟩

/-- Go `t.IsZero()`. -/
def IsZero (t : Time) : Bool := decide (t.nanos = 0)

/-- Go `t.After(u)`: `t` is strictly later than `u`. -/
def After (t u : Time) : Bool := decide (u.nanos < t.nanos)

end Time

/-! ## common/certificate.go: data model -/

/-- The enum `FileType`. -/
inductive FileType where
  | FileTypeUnknown
  | FileTypePublicCertificate
  | FileTypePrivateKey
  deriving DecidableEq, Repr

/-- The struct `CertificateInfo`. -/
structure CertificateInfo where
  Domains : List GoString
  Expiration : Time
  FilePath : GoString
  FileType : FileType
  deriving DecidableEq, Repr

/-- The struct `DirectoryCertificates`. -/
structure DirectoryCertificates where
  FilePath : GoString
  Certificates : List CertificateInfo
  deriving DecidableEq, Repr

/-! ## common/certificate.go: FindCertificate -/

/-- The condition of the innermost `if` of `FindCertificate`:
`strings.Contains(certDomain, domain) || strings.Contains(certDomain, "*."+domain)`. -/
def domainTest (certDomain domain : GoString) : Bool :=
  Contains certDomain domain || Contains certDomain (str "*." ++ domain)

/-- The value of `found` after the two inner loops of `FindCertificate` have
run over one directory: the loops leave as soon as one domain of one
certificate passes the test. -/
def dirFound (dir : DirectoryCertificates) (domain : GoString) : Bool :=
  dir.Certificates.any (fun cert => cert.Domains.any (fun certDomain => domainTest certDomain domain))

/-- One iteration of the outer loop of `FindCertificate`. -/
def findStep (domain : GoString) (result : List CertificateInfo)
    (dir : DirectoryCertificates) : List CertificateInfo :=
  if dirFound dir domain then
    dir.Certificates.foldl (fun acc cert => acc ++ [cert]) result
  else result

/-- The function `FindCertificate`. -/
def FindCertificate (certificateDirectories : List DirectoryCertificates)
    (domain : GoString) : List CertificateInfo :=
  certificateDirectories.foldl (findStep domain) []

/-! ## Specification vocabulary for the resolver -/

/-- A certificate domain `d` satisfies the match test for `domain`: `d`
contains `domain`, or `d` contains `"*."` followed by `domain`. -/
def DomainMatch (d domain : GoString) : Prop :=
  domain <:+: d ∨ (str "*." ++ domain) <:+: d

instance (d domain : GoString) : Decidable (DomainMatch d domain) := by
  unfold DomainMatch; infer_instance

/-- A directory matches when some file in it has some domain satisfying the
match test. -/
def DirMatch (dir : DirectoryCertificates) (domain : GoString) : Prop :=
  ∃ file ∈ dir.Certificates, ∃ d ∈ file.Domains, DomainMatch d domain

instance (dir : DirectoryCertificates) (domain : GoString) : Decidable (DirMatch dir domain) := by
  unfold DirMatch; infer_instance

/-! ## crypto/subtle -/

/-- Go `subtle.ConstantTimeByteEq(x, y)`: `int((uint32(x^y) - 1) >> 31)`, with
the 32-bit subtraction written out modulo `2^32`. -/
def ConstantTimeByteEq (x y : Nat) : Nat :=
  (((x ^^^ y) + 2 ^ 32 - 1) % 2 ^ 32) >>> 31

/-- The loop of `subtle.ConstantTimeCompare`: `v |= x[i] ^ y[i]` for every
index, on two slices of equal length. -/
def xorFold : Nat → GoString → GoString → Nat
  | v, a :: x, b :: y => xorFold (v ||| (a.toNat ^^^ b.toNat)) x y
  | v, _, _ => v

/-- Go `subtle.ConstantTimeCompare(x, y)`: 1 when the slices have equal
contents and 0 otherwise; slices of different length give 0 at once. -/
def ConstantTimeCompare (x y : GoString) : Nat :=
  if x.length ≠ y.length then 0 else ConstantTimeByteEq (xorFold 0 x y) 0

/-! ## common/shared.go: configuration and wire types -/

/-- A Go `error` value, represented by its message. -/
abbrev GoError := GoString

/-- The struct `ServerDetailsConfig`. -/
structure ServerDetailsConfig where
  Port : Int
  ListenAddress : GoString
  CertificateDirectory : List GoString
  deriving DecidableEq, Repr

/-- The struct `ServerModeConfig`. -/
structure ServerModeConfig where
  ServerDetails : ServerDetailsConfig
  PublicAgeKeys : List GoString
  deriving DecidableEq, Repr

/-- The struct `CertificateRequest`, the JSON body of a certificate request. -/
structure CertificateRequest where
  Domain : GoString
  AgePublicKey : GoString
  Expiration : Time
  deriving DecidableEq, Repr

/-! ## command/server/main.go: validateAgePublicKey -/

/-- The loop state of `validateAgePublicKey`: the variable `found`, and the
number of calls to `subtle.ConstantTimeCompare` made so far. -/
structure KeyScan where
  found : Bool
  comparisons : Nat
  deriving DecidableEq, Repr

/-- One iteration of the loop of `validateAgePublicKey`: one call of
`subtle.ConstantTimeCompare`, setting `found` when it returns 1; there is no
`break`. -/
def keyScanStep (reqPublicKey : GoString) (s : KeyScan) (allowedKey : GoString) : KeyScan :=
  let c := ConstantTimeCompare allowedKey reqPublicKey
  { found := if c = 1 then true else s.found, comparisons := s.comparisons + 1 }

/-- The loop of `validateAgePublicKey` over `config.PublicAgeKeys`. -/
def keyScan (config : ServerModeConfig) (reqPublicKey : GoString) : KeyScan :=
  config.PublicAgeKeys.foldl (keyScanStep reqPublicKey) { found := false, comparisons := 0 }

/-- The function `validateAgePublicKey`: `none` is the `nil` error. -/
def validateAgePublicKey (config : ServerModeConfig) (reqPublicKey : GoString) : Option GoError :=
  if (keyScan config reqPublicKey).found then none
  else some (str "public key not whitelisted")

/-! ## The libraries the program calls -/

/-- An entry of `os.ReadDir`: the methods `Name()` and `IsDir()`. -/
structure DirEntry where
  Name : GoString
  IsDir : Bool
  deriving DecidableEq, Repr

/-- A `pem.Block`: its `Type` (here `Type_`, as `Type` is reserved) and `Bytes`. -/
structure PemBlock where
  Type_ : GoString
  Bytes : GoString
  deriving DecidableEq, Repr

/-- The fields of an `x509.Certificate` the program reads. -/
structure X509Certificate where
  DNSNames : List GoString
  NotAfter : Time
  deriving DecidableEq, Repr

/-- An `age.X25519Recipient`. -/
structure X25519Recipient where
  theirPublicKey : GoString
  deriving DecidableEq, Repr

/-- An `age.X25519Identity`. -/
structure X25519Identity where
  secretKey : GoString
  ourPublicKey : GoString
  deriving DecidableEq, Repr

/-- The method `(*X25519Identity).Recipient`. -/
def X25519Identity.Recipient (i : X25519Identity) : X25519Recipient :=
  { theirPublicKey := i.ourPublicKey }

/-- An entry added to a `zip.Writer`: the name given to `Create` and the bytes
written to it. -/
structure ZipEntry where
  Name : GoString
  Data : GoString
  deriving DecidableEq, Repr

/-- A `zip.File` of a `zip.Reader`: its `Name`, whether `FileInfo().IsDir()`
holds, and the outcome of opening and reading it. -/
structure ZipFile where
  Name : GoString
  IsDir : Bool
  Content : Except GoError GoString

/-- The outcome of `os.Stat(path)`: the file information, of which the program
could read `IsDir()`, or the kind of the error. -/
inductive StatOutcome where
  /-- The call succeeds: something exists at the path. -/
  | info (isDir : Bool)
  /-- The call fails with "no such file or directory" (`ENOENT`):
  `os.IsNotExist` holds for the error. -/
  | notExist
  /-- The call fails with "not a directory" (`ENOTDIR`): a parent of the path
  is a regular file, so nothing exists at the path; `os.IsNotExist` does not
  hold for the error. -/
  | notDir
  /-- The call fails with another error, such as "permission denied". -/
  | failed (err : GoError)
  deriving DecidableEq, Repr

/-- The outcome of every call the program makes into the standard library and
third-party packages. A failing call yields the message of its error. -/
structure World where
  /-- The call `os.ReadFile(path)`. -/
  ReadFile : GoString → Except GoError GoString
  /-- The call `os.ReadDir(dir)`. -/
  ReadDir : GoString → Except GoError (List DirEntry)
  /-- The call `filepath.Join(dir, name)`. -/
  Join : GoString → GoString → GoString
  /-- The first result of `pem.Decode(data)`; `none` is the `nil` block. -/
  pemDecode : GoString → Option PemBlock
  /-- The call `x509.ParseCertificate(der)`. -/
  ParseCertificate : GoString → Except GoError X509Certificate
  /-- The call `json.Unmarshal(body, &req)` into a zero `CertificateRequest`. -/
  Unmarshal : GoString → Except GoError CertificateRequest
  /-- The error of `zipWriter.Create(name)` on a writer that holds `entries`. -/
  zipCreate : (entries : List ZipEntry) → (name : GoString) → Option GoError
  /-- The error of `zipFile.Write(data)` on the entry just created. -/
  zipWrite : (entries : List ZipEntry) → (name : GoString) → (data : GoString) → Option GoError
  /-- The call `zipWriter.Close()` on a writer that holds `entries`, and the
  bytes the underlying buffer holds afterwards. -/
  zipClose : (entries : List ZipEntry) → Except GoError GoString
  /-- The call `zip.NewReader` on a byte slice, and the field `File` of the reader. -/
  zipNewReader : GoString → Except GoError (List ZipFile)
  /-- The call `age.ParseX25519Recipient(s)`. -/
  ParseX25519Recipient : GoString → Except GoError X25519Recipient
  /-- The call `age.ParseX25519Identity(s)`. -/
  ParseX25519Identity : GoString → Except GoError X25519Identity
  /-- The error of `age.Encrypt(dst, recipient)`. -/
  ageEncrypt : X25519Recipient → Option GoError
  /-- The error of `io.Copy(w, src)` into the encryption writer. -/
  ageCopy : X25519Recipient → (plaintext : GoString) → Option GoError
  /-- The call `w.Close()` on the encryption writer, and the bytes the
  destination buffer holds afterwards. -/
  ageClose : X25519Recipient → (plaintext : GoString) → Except GoError GoString
  /-- The error of `age.Decrypt(src, identity)`. -/
  ageDecrypt : X25519Identity → (ciphertext : GoString) → Option GoError
  /-- The call `io.Copy(out, decryptor)`, and the bytes `out` holds afterwards. -/
  ageRead : X25519Identity → (ciphertext : GoString) → Except GoError GoString
  /-- The error of `w.Write(data)` on the HTTP response. -/
  responseWrite : (data : GoString) → Option GoError
  /-- The error of `os.MkdirAll(path, perm)`. -/
  MkdirAll : (path : GoString) → Option GoError
  /-- The error of `os.OpenFile(path, os.O_WRONLY|os.O_CREATE|os.O_TRUNC, mode)`. -/
  OpenFile : (path : GoString) → Option GoError
  /-- The call `exec.Command("sh", "-c", command).CombinedOutput()` made after
  the commands `ran` have been run: the combined output and the error. -/
  CombinedOutput : (ran : List GoString) → (command : GoString) → GoString × Option GoError
  /-- The call `os.Stat(path)`. -/
  Stat : (path : GoString) → StatOutcome

/-- Whether `os.IsNotExist(err)` holds for the error of `os.Stat(path)`: only
the error "no such file or directory" is a not-exist error. -/
def World.StatNotExist (W : World) (path : GoString) : Bool :=
  decide (W.Stat path = StatOutcome.notExist)

/-- Nothing exists at the path: `os.Stat` fails because the last element is
missing, or because a parent of it is not a directory. -/
def Missing (W : World) (path : GoString) : Prop :=
  W.Stat path = StatOutcome.notExist ∨ W.Stat path = StatOutcome.notDir

instance (W : World) (path : GoString) : Decidable (Missing W path) := by
  unfold Missing; infer_instance

/-- Go `filepath.Base(path)` on a system whose separator is `/`: the last
element of the path, after removal of trailing separators; `"."` for the empty
path and `"/"` for a path of separators only. -/
def Base (path : GoString) : GoString :=
  if path = [] then str "."
  else
    let stripped := (path.reverse.dropWhile (fun c => c = 47)).reverse
    let last := (stripped.reverse.takeWhile (fun c => c ≠ 47)).reverse
    if last = [] then str "/" else last

/-- The name is the base name of the path, in the words of the documentation
of `filepath.Base`: `.` for the empty path; `/` for a path of separators only;
and otherwise the last element of the path, that is, the path is a directory
part that is empty or ends in a separator, then the name, which is not empty
and holds no separator, then nothing but trailing separators. -/
def IsBaseNameOf (name path : GoString) : Prop :=
  (path = [] ∧ name = str ".")
    ∨ (path ≠ [] ∧ (∀ c ∈ path, c = 47) ∧ name = str "/")
    ∨ ∃ dir trail, path = dir ++ name ++ trail
        ∧ (dir = [] ∨ [47] <:+ dir) ∧ (∀ c ∈ trail, c = 47)
        ∧ name ≠ [] ∧ (47 : UInt8) ∉ name

/-! ## common/certificate.go: parseCertificateFile and LoadCertificates -/

/-- The function `parseCertificateFile`; the result is the Go pair
`(*CertificateInfo, error)`. -/
def parseCertificateFile (W : World) (filePath : GoString) :
    Option CertificateInfo × Option GoError :=
  match W.ReadFile filePath with
  | .error err => (none, some (str "failed to read file: " ++ err))
  | .ok data =>
    let info : CertificateInfo :=
      { Domains := [], Expiration := Time.zero, FilePath := filePath,
        FileType := FileType.FileTypeUnknown }
    match W.pemDecode data with
    | none => (none, some (str "failed to decode PEM block"))
    | some block =>
      if block.Type_ = str "CERTIFICATE" then
        match W.ParseCertificate block.Bytes with
        | .error err => (none, some (str "failed to parse certificate: " ++ err))
        | .ok cert =>
          (some { info with FileType := FileType.FileTypePublicCertificate,
                            Domains := cert.DNSNames, Expiration := cert.NotAfter }, none)
      else if Contains block.Type_ (str "PRIVATE KEY") then
        (some { info with FileType := FileType.FileTypePrivateKey }, none)
      else (none, some (str "unhandled PEM block type: " ++ block.Type_))

/-- One iteration of the inner loop of `LoadCertificates`. -/
def loadFileStep (W : World) (dir : GoString) (certificates : List CertificateInfo)
    (file : DirEntry) : List CertificateInfo :=
  if file.IsDir then certificates
  else
    let path := W.Join dir file.Name
    match parseCertificateFile W path with
    | (_, some _) => certificates
    | (some info, none) => certificates ++ [info]
    | (none, none) => certificates

/-- One iteration of the outer loop of `LoadCertificates`. -/
def loadDirStep (W : World) (result : List DirectoryCertificates) (dir : GoString) :
    List DirectoryCertificates :=
  match W.ReadDir dir with
  | .error _ => result
  | .ok files =>
    result ++ [{ FilePath := dir, Certificates := files.foldl (loadFileStep W dir) [] }]

/-- The function `LoadCertificates`. -/
def LoadCertificates (W : World) (directories : List GoString) : List DirectoryCertificates :=
  directories.foldl (loadDirStep W) []

/-! ## common/encryption.go: EncryptAndZipCertificates -/

/-- Step 2 of `EncryptAndZipCertificates`: the loop that adds the files to the
zip writer, started on a writer that holds `entries`. It yields the entries
the writer holds after the loop, or the error of the first failing step. Each
successful `Create` appends one entry: the writer keeps an entry per call
and duplicate names do not replace earlier entries. -/
def zipFiles (W : World) : List ZipEntry → List CertificateInfo → Except GoError (List ZipEntry)
  | entries, [] => .ok entries
  | entries, certInfo :: rest =>
    match W.ReadFile certInfo.FilePath with
    | .error err =>
      .error (str "failed to read file " ++ certInfo.FilePath ++ str ": " ++ err)
    | .ok fileData =>
      match W.zipCreate entries (Base certInfo.FilePath) with
      | some err =>
        .error (str "failed to create zip entry for " ++ certInfo.FilePath ++ str ": " ++ err)
      | none =>
        match W.zipWrite entries (Base certInfo.FilePath) fileData with
        | some err =>
          .error (str "failed to write file content to zip for " ++ certInfo.FilePath
            ++ str ": " ++ err)
        | none =>
          zipFiles W (entries ++ [{ Name := Base certInfo.FilePath, Data := fileData }]) rest

/-- Step 3 of `EncryptAndZipCertificates`: encryption of the zip buffer. -/
def encryptZip (W : World) (zipBuf : GoString) (publicKey : GoString) :
    Option GoString × Option GoError :=
  match W.ParseX25519Recipient publicKey with
  | .error err => (none, some (str "failed to parse age public key: " ++ err))
  | .ok recipient =>
    match W.ageEncrypt recipient with
    | some err => (none, some (str "failed to create encryption writer: " ++ err))
    | none =>
      match W.ageCopy recipient zipBuf with
      | some err => (none, some (str "failed to write to encryption writer: " ++ err))
      | none =>
        match W.ageClose recipient zipBuf with
        | .error err => (none, some (str "failed to close encryption writer: " ++ err))
        | .ok encrypted => (some encrypted, none)

/-- The function `EncryptAndZipCertificates`; the result is the Go pair
`([]byte, error)`, with `none` for `nil`. -/
def EncryptAndZipCertificates (W : World) (certificates : List CertificateInfo)
    (publicKey : GoString) : Option GoString × Option GoError :=
  match zipFiles W [] certificates with
  | .error err => (none, some err)
  | .ok entries =>
    match W.zipClose entries with
    | .error err => (none, some (str "failed to close zip writer: " ++ err))
    | .ok zipBuf => encryptZip W zipBuf publicKey

/-! ## command/client/main.go: decryptWithAge -/

/-- The function `decryptWithAge`; the result is the Go pair `([]byte, error)`. -/
def decryptWithAge (W : World) (data : GoString) (privateKey : GoString) :
    Option GoString × Option GoError :=
  match W.ParseX25519Identity privateKey with
  | .error err => (none, some (str "failed to parse age private key: " ++ err))
  | .ok identity =>
    match W.ageDecrypt identity data with
    | some err => (none, some (str "failed to decrypt: " ++ err))
    | none =>
      match W.ageRead identity data with
      | .error err => (none, some (str "failed to read decrypted data: " ++ err))
      | .ok out => (some out, none)

/-! ## net/http: the response writer -/

/-- The state of the `http.ResponseWriter` of one request: whether the status
line has been written and with which code, the header map, and the bytes
handed to `Write` so far, in order. -/
structure ResponseWriter where
  wroteHeader : Bool
  status : Nat
  header : List (GoString × GoString)
  body : GoString
  deriving DecidableEq, Repr

namespace ResponseWriter

/-- The response writer a handler receives. -/
def fresh : ResponseWriter := { wroteHeader := false, status := 0, header := [], body := [] }

/-- The call `w.WriteHeader(code)`: the first call fixes the status code, a
later call is superfluous and changes nothing. -/
def WriteHeader (w : ResponseWriter) (code : Nat) : ResponseWriter :=
  if w.wroteHeader then w else { w with wroteHeader := true, status := code }

/-- The call `w.Write(data)`: when `WriteHeader` has not been called yet it is
called with `http.StatusOK` first. -/
def Write (w : ResponseWriter) (data : GoString) : ResponseWriter :=
  let w1 := if w.wroteHeader then w else w.WriteHeader 200
  { w1 with body := w1.body ++ data }

/-- The call `w.Header().Del(key)`. -/
def HeaderDel (w : ResponseWriter) (key : GoString) : ResponseWriter :=
  { w with header := w.header.filter (fun kv => decide (kv.1 ≠ key)) }

/-- The call `w.Header().Set(key, value)`. -/
def HeaderSet (w : ResponseWriter) (key value : GoString) : ResponseWriter :=
  { w with header := (w.header.filter (fun kv => decide (kv.1 ≠ key))) ++ [(key, value)] }

/-- Go `http.Error(w, error, code)`: plain-text headers, the status code, and
the message followed by a newline as body. -/
def Error (w : ResponseWriter) (error : GoString) (code : Nat) : ResponseWriter :=
  let w1 := w.HeaderDel (str "Content-Length")
  let w2 := w1.HeaderSet (str "Content-Type") (str "text/plain; charset=utf-8")
  let w3 := w2.HeaderSet (str "X-Content-Type-Options") (str "nosniff")
  (w3.WriteHeader code).Write (error ++ str "\n")

end ResponseWriter

/-! ## command/server/main.go: handleCertificateRequest -/

/-- What the handler reads of an `http.Request`: the method, and the outcome
of `io.ReadAll(r.Body)`. -/
structure Request where
  Method : GoString
  Body : Except GoError GoString

/-- The components of the program the handler calls. -/
inductive Call where
  | LoadCertificates
  | FindCertificate
  | validateAgePublicKey
  | EncryptAndZipCertificates
  deriving DecidableEq, Repr

/-- The outcome of one run of the handler: the final state of the response
writer, and the calls the run made to the other components, in order. -/
structure Handled where
  w : ResponseWriter
  calls : List Call
  deriving DecidableEq, Repr

/-- The constant `http.MethodPost`. -/
def MethodPost : GoString := str "POST"

/-- The function returned by `handleCertificateRequest(config)`, run on one
request. Logging, and the random request id that only the log lines carry, are
left out. The test `len(foundCerts) == 0` followed by `foundCerts[0]` is a
match on the list. -/
def handleCertificateRequest (W : World) (config : ServerModeConfig) (r : Request) : Handled :=
  let w := ResponseWriter.fresh
  if r.Method ≠ MethodPost then
    { w := w.Error (str "Only POST method is allowed") 405, calls := [] }
  else
    match r.Body with
    | .error _ => { w := w.Error (str "Failed to read request body") 500, calls := [] }
    | .ok body =>
      match W.Unmarshal body with
      | .error _ => { w := w.Error (str "Invalid request body") 400, calls := [] }
      | .ok req =>
        let directoryCertificates :=
          LoadCertificates W config.ServerDetails.CertificateDirectory
        let foundCerts := FindCertificate directoryCertificates req.Domain
        let calls := [Call.LoadCertificates, Call.FindCertificate]
        match foundCerts with
        | [] => { w := w.Error (str "Certificate not found") 404, calls := calls }
        | first :: _ =>
          if !req.Expiration.IsZero && !(first.Expiration.After req.Expiration) then
            { w := w.WriteHeader 304, calls := calls }
          else
            match validateAgePublicKey config req.AgePublicKey with
            | some _ =>
              { w := w.Error (str "Public key not authorized") 403,
                calls := calls ++ [Call.validateAgePublicKey] }
            | none =>
              let calls := calls ++ [Call.validateAgePublicKey, Call.EncryptAndZipCertificates]
              match EncryptAndZipCertificates W foundCerts req.AgePublicKey with
              | (_, some _) =>
                { w := w.Error (str "Internal server error") 500, calls := calls }
              | (encryptedData, none) =>
                let w1 := w.HeaderSet (str "Content-Type") (str "application/octet-stream")
                let w2 := w1.Write (encryptedData.getD [])
                match W.responseWrite (encryptedData.getD []) with
                | some _ => { w := w2.Error (str "Internal server error") 500, calls := calls }
                | none => { w := w2, calls := calls }

/-! ## The contracts of the zip and age packages -/

/-- The contract of `archive/zip` on an in-memory buffer: adding an entry,
writing to it and closing the writer do not fail, and a reader opened on the
bytes of a closed writer lists the entries written, in order, each with its
name and its data. -/
structure ZipContract (W : World) : Prop where
  create_ok : ∀ entries name, W.zipCreate entries name = none
  write_ok : ∀ entries name data, W.zipWrite entries name data = none
  close_ok : ∀ entries, ∃ buf, W.zipClose entries = .ok buf
  read_back : ∀ entries buf, W.zipClose entries = .ok buf →
    ∃ files, W.zipNewReader buf = .ok files
      ∧ List.Forall₂ (fun (f : ZipFile) (e : ZipEntry) =>
          f.Name = e.Name ∧ f.Content = .ok e.Data) files entries

/-- The contract of `age`: encrypting to a recipient does not fail, and the
identity the recipient belongs to decrypts the ciphertext to the plaintext. -/
structure AgeContract (W : World) : Prop where
  encrypt_ok : ∀ recipient, W.ageEncrypt recipient = none
  copy_ok : ∀ recipient plaintext, W.ageCopy recipient plaintext = none
  close_ok : ∀ recipient plaintext, ∃ ciphertext, W.ageClose recipient plaintext = .ok ciphertext
  decrypt_ok : ∀ (identity : X25519Identity) plaintext ciphertext,
    W.ageClose identity.Recipient plaintext = .ok ciphertext →
      W.ageDecrypt identity ciphertext = none ∧ W.ageRead identity ciphertext = .ok plaintext

/-- The strings `publicKey` and `privateKey` are a key pair: the private key
parses to an identity and the public key parses to the recipient of that
identity. -/
def KeyPair (W : World) (publicKey privateKey : GoString) : Prop :=
  ∃ identity, W.ParseX25519Identity privateKey = .ok identity
    ∧ W.ParseX25519Recipient publicKey = .ok identity.Recipient

/-! ## The check order of the handler, as the specification words it -/

/-- The request the body carries: the body is read and is valid JSON for a
`CertificateRequest`. -/
def parsedRequest (W : World) (r : Request) : Option CertificateRequest :=
  match r.Body with
  | .error _ => none
  | .ok body =>
    match W.Unmarshal body with
    | .error _ => none
    | .ok req => some req

/-- The status the checks after parsing prescribe, in their order: an empty
resolution result gives 404; then a non-zero known expiration that the first
resolved file's expiration is not strictly after gives 304; then a requester
key outside the allow-list gives 403; then a packaging failure gives 500; if
no check fails the status is 200. -/
def statusAfterParse (W : World) (config : ServerModeConfig) (req : CertificateRequest) : Nat :=
  match FindCertificate (LoadCertificates W config.ServerDetails.CertificateDirectory)
      req.Domain with
  | [] => 404
  | first :: rest =>
    if req.Expiration ≠ Time.zero ∧ ¬ (req.Expiration.nanos < first.Expiration.nanos) then 304
    else if req.AgePublicKey ∉ config.PublicAgeKeys then 403
    else if (EncryptAndZipCertificates W (first :: rest) req.AgePublicKey).2 ≠ none then 500
    else 200

/-- The status of the first failing check in the order non-POST method (405),
body that is not valid JSON for a `CertificateRequest` (400), then the checks
after parsing. -/
def claimedStatus (W : World) (config : ServerModeConfig) (r : Request) : Nat :=
  if r.Method ≠ MethodPost then 405
  else
    match parsedRequest W r with
    | none => 400
    | some req => statusAfterParse W config req

/-- The status of the first failing check in the order non-POST method (405),
body that cannot be read (500), body that is not valid JSON for a
`CertificateRequest` (400), then the checks after parsing. -/
def orderedStatus (W : World) (config : ServerModeConfig) (r : Request) : Nat :=
  if r.Method ≠ MethodPost then 405
  else
    match r.Body with
    | .error _ => 500
    | .ok body =>
      match W.Unmarshal body with
      | .error _ => 400
      | .ok req => statusAfterParse W config req

/-! ## A small concrete world

A certificate directory `/certs` with a certificate file and a private-key
file, a second directory `/backup` with an older certificate file, and toy
stand-ins for the codecs: they serve to evaluate the program on concrete
requests. -/

/-- Toy string codec: every byte `b` becomes `1, b`, and `0` ends the string. -/
def encStr (s : GoString) : GoString := s.flatMap (fun b => [1, b]) ++ [0]

/-- Inverse of `encStr`: the decoded string and the bytes that follow it. -/
def decStr : GoString → Option (GoString × GoString)
  | 0 :: rest => some ([], rest)
  | 1 :: b :: rest => (decStr rest).map (fun p => (b :: p.1, p.2))
  | _ => none

/-- Toy archive codec: the entries one after the other, name then data. -/
def encEntries (entries : List ZipEntry) : GoString :=
  entries.flatMap (fun e => encStr e.Name ++ encStr e.Data)

/-- Inverse of `encEntries`, with fuel bounding the number of entries. -/
def decEntries : Nat → GoString → Option (List ZipEntry)
  | 0, bytes => if bytes = [] then some [] else none
  | fuel + 1, bytes =>
    if bytes = [] then some []
    else
      match decStr bytes with
      | none => none
      | some (name, r1) =>
        match decStr r1 with
        | none => none
        | some (data, r2) =>
          (decEntries fuel r2).map (fun es => { Name := name, Data := data } :: es)

/-- The file a reader shows for an entry written by `Create`: a name ending in
`/` denotes a directory. -/
def ZipEntry.toFile (e : ZipEntry) : ZipFile :=
  { Name := e.Name, IsDir := e.Name.getLast? = some 47, Content := .ok e.Data }

/-- Toy JSON: the body is `domain|key|e`, the length of `e` being the known
expiration in nanoseconds; the empty body is malformed. -/
def demoUnmarshal (body : GoString) : Except GoError CertificateRequest :=
  if body = [] then .error (str "unexpected end of JSON input")
  else
    let domain := body.takeWhile (fun c => c ≠ 124)
    let rest := (body.dropWhile (fun c => c ≠ 124)).drop 1
    let key := rest.takeWhile (fun c => c ≠ 124)
    let e := (rest.dropWhile (fun c => c ≠ 124)).drop 1
    .ok { Domain := domain, AgePublicKey := key, Expiration := ⟨e.length⟩ }

/-- The concrete world. -/
def demoWorld : World where
  ReadFile := fun path =>
    if path = str "/certs/cert.pem" then .ok (str "Cexample.com")
    else if path = str "/certs/privkey.pem" then .ok (str "Ksecret")
    else if path = str "/backup/cert.pem" then .ok (str "Cold.example.com")
    else .error (str "no such file or directory")
  ReadDir := fun dir =>
    if dir = str "/certs" then
      .ok [{ Name := str "cert.pem", IsDir := false }, { Name := str "privkey.pem", IsDir := false }]
    else if dir = str "/backup" then .ok [{ Name := str "cert.pem", IsDir := false }]
    else .error (str "no such file or directory")
  Join := fun dir name => dir ++ str "/" ++ name
  pemDecode := fun data =>
    match data with
    | 67 :: rest => some { Type_ := str "CERTIFICATE", Bytes := rest }
    | 75 :: rest => some { Type_ := str "EC PRIVATE KEY", Bytes := rest }
    | _ => none
  ParseCertificate := fun der => .ok { DNSNames := [der], NotAfter := ⟨3⟩ }
  Unmarshal := demoUnmarshal
  zipCreate := fun _ _ => none
  zipWrite := fun _ _ _ => none
  zipClose := fun entries => .ok (encEntries entries)
  zipNewReader := fun data =>
    match decEntries data.length data with
    | none => .error (str "zip: not a valid zip file")
    | some entries => .ok (entries.map ZipEntry.toFile)
  ParseX25519Recipient := fun s =>
    if HasPrefix s (str "age1") then .ok { theirPublicKey := s.drop 4 }
    else .error (str "malformed recipient")
  ParseX25519Identity := fun s =>
    if HasPrefix s (str "AGE-SECRET-KEY-1") then
      .ok { secretKey := s.drop 16, ourPublicKey := s.drop 16 }
    else .error (str "malformed secret key")
  ageEncrypt := fun _ => none
  ageCopy := fun _ _ => none
  ageClose := fun recipient plaintext => .ok (recipient.theirPublicKey ++ plaintext.reverse)
  ageDecrypt := fun identity ciphertext =>
    if HasPrefix ciphertext identity.ourPublicKey then none
    else some (str "no identity matched any of the recipients")
  ageRead := fun identity ciphertext => .ok (ciphertext.drop identity.ourPublicKey.length).reverse
  responseWrite := fun _ => none
  MkdirAll := fun _ => none
  OpenFile := fun _ => none
  CombinedOutput := fun _ command =>
    if HasPrefix command (str "false") then ([], some (str "exit status 1"))
    else (str "ok\n", none)
  Stat := fun path =>
    if path = str "/certs" ∨ path = str "/backup" then StatOutcome.info true
    else if path = str "/certs/cert.pem" ∨ path = str "/certs/privkey.pem"
        ∨ path = str "/backup/cert.pem" then StatOutcome.info false
    else if HasPrefix path (str "/certs/cert.pem/") then StatOutcome.notDir
    else StatOutcome.notExist

/-- A server configuration over the concrete world, with one allow-listed key. -/
def demoConfig : ServerModeConfig :=
  { ServerDetails := { Port := 8080, ListenAddress := str "127.0.0.1",
                       CertificateDirectory := [str "/certs"] },
    PublicAgeKeys := [str "age1k"] }

/-- A POST request with the given body. -/
def post (body : String) : Request := { Method := str "POST", Body := .ok (str body) }

/-- A POST request whose body cannot be read to its end. -/
def brokenPost : Request := { Method := str "POST", Body := .error (str "unexpected EOF") }

/-- A `CertificateInfo` for a file at `path`, as `EncryptAndZipCertificates`
reads it. -/
def fileAt (path : String) : CertificateInfo :=
  { Domains := [], Expiration := Time.zero, FilePath := str path,
    FileType := FileType.FileTypeUnknown }

/-! ## Specification vocabulary for the scanner -/

/-- The file is parsed successfully: `parseCertificateFile` returns a
`CertificateInfo` and no error. -/
def parsedFile (W : World) (path : GoString) : Option CertificateInfo :=
  match parseCertificateFile W path with
  | (some info, none) => some info
  | _ => none

/-- The index of a directory listing: the non-directory entries that parse
successfully, in listing order. -/
def indexOf (W : World) (dir : GoString) (files : List DirEntry) : List CertificateInfo :=
  files.filterMap (fun file =>
    if file.IsDir then none else parsedFile W (W.Join dir file.Name))

/-- The index of a directory, when the directory can be read. -/
def directoryIndex (W : World) (dir : GoString) : Option DirectoryCertificates :=
  match W.ReadDir dir with
  | .error _ => none
  | .ok files => some { FilePath := dir, Certificates := indexOf W dir files }

/-- The resolver that tests only whether a certificate domain contains the
requested domain. -/
def FindCertificateSimple (dirs : List DirectoryCertificates) (domain : GoString) :
    List CertificateInfo :=
  ((dirs.filter (fun dir =>
      decide (∃ file ∈ dir.Certificates, ∃ d ∈ file.Domains, domain <:+: d))).map
    (fun dir => dir.Certificates)).flatten

/-! ## command/client/main.go: executeRenewCommands -/

/-- The outcome of a run of `executeRenewCommands`: the error returned, and
the commands handed to the shell, in order. -/
structure RenewRun where
  err : Option GoError
  ran : List GoString
  deriving DecidableEq, Repr

/-- The loop of `executeRenewCommands`, entered after the commands `ran` have
been run. Log lines are left out. -/
def renewLoop (W : World) : List GoString → List GoString → RenewRun
  | ran, [] => { err := none, ran := ran }
  | ran, command :: rest =>
    match W.CombinedOutput ran command with
    | (_, some err) =>
      { err := some (str "failed to execute command '" ++ command ++ str "': " ++ err),
        ran := ran ++ [command] }
    | (_, none) => renewLoop W (ran ++ [command]) rest

/-- The function `executeRenewCommands`. -/
def executeRenewCommands (W : World) (commands : List GoString) : RenewRun :=
  renewLoop W [] commands

/-! ## command/client/config_validation.go: validateConnectionDetails -/

/-- The struct `ClientConnectionConfig`. -/
structure ClientConnectionConfig where
  Server : GoString
  deriving DecidableEq, Repr

/-- The struct `CertificateConfig`. -/
structure CertificateConfig where
  Domain : GoString
  Directory : GoString
  RenewCommands : List GoString
  deriving DecidableEq, Repr

/-- The struct `AgeKeyConfig`. -/
structure AgeKeyConfig where
  PublicKey : GoString
  PrivateKey : GoString
  deriving DecidableEq, Repr

/-- The struct `ClientModeConfig`. -/
structure ClientModeConfig where
  ConnectionDetails : ClientConnectionConfig
  Certificate : List CertificateConfig
  AgeKey : AgeKeyConfig
  deriving DecidableEq, Repr

/-- Go `strings.HasSuffix(s, suffix)`. -/
def HasSuffix (s suffix : GoString) : Bool := suffix.reverse.isPrefixOf s.reverse

/-- The assignment `config.ConnectionDetails.Server = server`. -/
def ClientModeConfig.setServer (config : ClientModeConfig) (server : GoString) :
    ClientModeConfig :=
  { config with ConnectionDetails := { config.ConnectionDetails with Server := server } }

/-- The function `validateConnectionDetails`: the configuration it leaves
behind the pointer, and the error it returns. Log lines are left out. -/
def validateConnectionDetails (config : ClientModeConfig) : ClientModeConfig × Option GoError :=
  if config.ConnectionDetails.Server = [] then
    (config, some (str "connection.server is not configured"))
  else
    let config1 :=
      if HasPrefix config.ConnectionDetails.Server (str "http://") then config
      else if !HasPrefix config.ConnectionDetails.Server (str "https://") then
        config.setServer (str "https://" ++ config.ConnectionDetails.Server)
      else config
    let config2 :=
      if HasSuffix config1.ConnectionDetails.Server (str "/") then
        config1.setServer (config1.ConnectionDetails.Server.take
          (config1.ConnectionDetails.Server.length - 1))
      else config1
    (config2, none)

/-! ## command/server/config_validation.go: validateServerDetails -/

/-- The function `validateServerDetails`: the configuration it leaves behind
the pointer, and the error it returns. The loop over the directories returns
at the first directory for which `os.IsNotExist` holds. -/
def validateServerDetails (W : World) (config : ServerModeConfig) :
    ServerModeConfig × Option GoError :=
  let config1 : ServerModeConfig :=
    if config.ServerDetails.ListenAddress.length = 0 then
      { config with ServerDetails :=
          { config.ServerDetails with ListenAddress := str "127.0.0.1" } }
    else config
  if config1.ServerDetails.Port = 0 then
    (config1, some (str "server.port is not configured"))
  else if config1.ServerDetails.CertificateDirectory.length = 0 then
    (config1, some (str "at least one server.certificate_directories must be configured"))
  else
    match config1.ServerDetails.CertificateDirectory.find? (fun dir => W.StatNotExist dir) with
    | some dir =>
      (config1, some (str "configured certificate directory does not exist: " ++ dir))
    | none => (config1, none)

/-! ## Specification vocabulary for the client configuration -/

/-- The server string with a scheme: the string itself when it begins with
`http://` or `https://`, and `https://` followed by it otherwise. -/
def withScheme (server : GoString) : GoString :=
  if str "http://" <+: server ∨ str "https://" <+: server then server
  else str "https://" ++ server

/-- The string without one trailing `/`, if it has one. -/
def stripSlash (s : GoString) : GoString :=
  if str "/" <:+ s then s.dropLast else s

/-- A client configuration with a server string. -/
def clientConfig (server : String) : ClientModeConfig :=
  { ConnectionDetails := { Server := str server }, Certificate := [],
    AgeKey := { PublicKey := [], PrivateKey := [] } }

/-! ## path/filepath, on a system whose separator is `/` -/

/-- The elements of a path: the pieces between separators, empty ones
included. -/
def splitSlash : GoString → List GoString
  | [] => [[]]
  | c :: cs =>
    if c = 47 then [] :: splitSlash cs
    else
      match splitSlash cs with
      | [] => [[c]]
      | e :: es => (c :: e) :: es

/-- The path begins with a separator. -/
def isRooted (path : GoString) : Bool := decide (path.head? = some 47)

/-- One element processed by `filepath.Clean`, the elements kept so far being
on a stack with the last one on top: an empty element and `.` are dropped;
`..` removes the element on top, is dropped at the root, and is kept when
there is nothing but `..` elements to remove; any other element is kept. -/
def cleanStep (rooted : Bool) (stack : List GoString) (e : GoString) : List GoString :=
  if e = [] ∨ e = str "." then stack
  else if e = str ".." then
    match stack with
    | [] => if rooted then [] else [str ".."]
    | top :: below =>
      if top = str ".." then (if rooted then stack else str ".." :: stack) else below
  else e :: stack

/-- The element is kept by `filepath.Clean` as it stands: it is neither empty
nor `.`. -/
def isKept (e : GoString) : Bool := decide (e ≠ [] ∧ e ≠ str ".")

/-- The element is a name: not empty, not `.`, not `..`, and without a
separator. -/
def IsName (e : GoString) : Prop :=
  e ≠ [] ∧ e ≠ str "." ∧ e ≠ str ".." ∧ (47 : UInt8) ∉ e

/-- The shape of the stack `filepath.Clean` builds: names on top of `..`
elements, and no `..` element at all in a rooted path. -/
def CleanStack (rooted : Bool) (stack : List GoString) : Prop :=
  ∃ k names, stack = names ++ List.replicate k (str "..")
    ∧ (∀ e ∈ names, IsName e) ∧ (rooted = true → k = 0)

/-- The elements of the cleaned path, first one first. -/
def cleanElems (path : GoString) : List GoString :=
  ((splitSlash path).foldl (cleanStep (isRooted path)) []).reverse

/-- Go `filepath.Clean(path)`: the shortest path equivalent to `path` by
lexical processing; `.` for the empty path. -/
def Clean (path : GoString) : GoString :=
  if path = [] then str "."
  else if isRooted path then 47 :: [47].intercalate (cleanElems path)
  else if cleanElems path = [] then str "."
  else [47].intercalate (cleanElems path)

/-- Go `filepath.Join(dir, name)`: the non-empty arguments joined by a
separator, cleaned; the empty string when both are empty. -/
def Join (dir name : GoString) : GoString :=
  if dir ≠ [] then Clean (dir ++ 47 :: name)
  else if name ≠ [] then Clean name
  else []

/-- Go `filepath.Dir(path)`: the path up to its last separator, cleaned. -/
def Dir (path : GoString) : GoString :=
  Clean ((path.reverse.dropWhile (fun c => c ≠ 47)).reverse)

/-- The path lies inside the directory `dest`, lexically: both are rooted or
both are not, the elements of `dest` begin the elements of the path, and no
`..` follows them. -/
def Inside (dest path : GoString) : Bool :=
  (isRooted path == isRooted dest)
    && (cleanElems dest).isPrefixOf (cleanElems path)
    && !(((cleanElems path).drop (cleanElems dest).length).contains (str ".."))

/-! ## command/client/main.go: unzip -/

/-- A call to the file system made by `unzip`. -/
inductive FsOp where
  /-- The call `os.MkdirAll(path, perm)`. -/
  | MkdirAll (path : GoString)
  /-- The call `os.OpenFile(path, os.O_WRONLY|os.O_CREATE|os.O_TRUNC, mode)`. -/
  | OpenFile (path : GoString)
  /-- The completed `io.Copy` of `data` into the file opened at `path`. -/
  | Write (path : GoString) (data : GoString)
  deriving DecidableEq, Repr

/-- The outcome of a run of `unzip`: the error returned, and the calls to the
file system, in order. -/
structure UnzipRun where
  err : Option GoError
  ops : List FsOp
  deriving DecidableEq, Repr

/-- The loop of `unzip` over `r.File`, entered after the calls `ops`. The
deferred `Close` calls and the file mode are left out. -/
def unzipLoop (W : World) (dest : GoString) : List FsOp → List ZipFile → UnzipRun
  | ops, [] => { err := none, ops := ops }
  | ops, f :: rest =>
    let fpath := Join dest f.Name
    if f.IsDir then unzipLoop W dest ops rest
    else
      let ops1 := ops ++ [FsOp.MkdirAll (Dir fpath)]
      match W.MkdirAll (Dir fpath) with
      | some err => { err := some err, ops := ops1 }
      | none =>
        let ops2 := ops1 ++ [FsOp.OpenFile fpath]
        match W.OpenFile fpath with
        | some err => { err := some err, ops := ops2 }
        | none =>
          match f.Content with
          | .error err => { err := some err, ops := ops2 }
          | .ok data => unzipLoop W dest (ops2 ++ [FsOp.Write fpath data]) rest

/-- The function `unzip`. -/
def unzip (W : World) (data dest : GoString) : UnzipRun :=
  match W.zipNewReader data with
  | .error err => { err := some err, ops := [] }
  | .ok files =>
    match W.MkdirAll dest with
    | some err => { err := some err, ops := [FsOp.MkdirAll dest] }
    | none => unzipLoop W dest [FsOp.MkdirAll dest] files

/-- The calls `unzip` makes for one non-directory entry when nothing fails. -/
def entryOps (dest : GoString) (f : ZipFile) : List FsOp :=
  [FsOp.MkdirAll (Dir (Join dest f.Name)), FsOp.OpenFile (Join dest f.Name)]
    ++ (match f.Content with
        | .ok data => [FsOp.Write (Join dest f.Name) data]
        | .error _ => [])

/-- A server configuration with the given certificate directories. -/
def serverConfig (dirs : List String) : ServerModeConfig :=
  { ServerDetails := { Port := 8080, ListenAddress := str "127.0.0.1",
                       CertificateDirectory := dirs.map str },
    PublicAgeKeys := [str "age1k"] }

/-! ## Lemmas on strings -/

theorem Contains_iff (s substr : GoString) : Contains s substr = true ↔ substr <:+: s := by
  unfold Contains
  rw [List.any_eq_true]
  constructor
  · rintro ⟨t, ht, hp⟩
    rw [List.mem_tails] at ht
    exact (List.isPrefixOf_iff_prefix.mp hp).isInfix.trans ht.isInfix
  · intro h
    obtain ⟨t, hp, hs⟩ := List.infix_iff_prefix_suffix.mp h
    exact ⟨t, (List.mem_tails _ _).mpr hs, List.isPrefixOf_iff_prefix.mpr hp⟩

theorem domainTest_iff (d domain : GoString) : domainTest d domain = true ↔ DomainMatch d domain := by
  simp [domainTest, DomainMatch, Contains_iff]

theorem dirFound_iff (dir : DirectoryCertificates) (domain : GoString) :
    dirFound dir domain = true ↔ DirMatch dir domain := by
  simp [dirFound, DirMatch, domainTest_iff]

/-! ## The domain resolver -/

theorem foldl_append_singleton {α : Type} (l acc : List α) :
    l.foldl (fun acc x => acc ++ [x]) acc = acc ++ l := by
  induction l generalizing acc with
  | nil => simp
  | cons x xs ih => simp [ih]

theorem findStep_eq (domain : GoString) (result : List CertificateInfo)
    (dir : DirectoryCertificates) :
    findStep domain result dir
      = result ++ (if DirMatch dir domain then dir.Certificates else []) := by
  unfold findStep
  by_cases h : DirMatch dir domain
  · simp [(dirFound_iff dir domain).mpr h, h, foldl_append_singleton]
  · have h' : dirFound dir domain = false := by
      cases hb : dirFound dir domain with
      | false => rfl
      | true => exact absurd ((dirFound_iff dir domain).mp hb) h
    simp [h', h]

theorem foldl_findStep (domain : GoString) (dirs : List DirectoryCertificates)
    (acc : List CertificateInfo) :
    dirs.foldl (findStep domain) acc
      = acc ++ ((dirs.filter (fun dir => decide (DirMatch dir domain))).map
          (fun dir => dir.Certificates)).flatten := by
  induction dirs generalizing acc with
  | nil => simp
  | cons dir rest ih =>
    rw [List.foldl_cons, ih, findStep_eq]
    by_cases h : DirMatch dir domain
    · simp [h, List.filter_cons]
    · simp [h, List.filter_cons]

/-- C1: `FindCertificate` returns exactly the concatenation, in directory
order, of the complete file lists of the directories that match, where a
directory matches when some file in it has a domain that contains the
requested domain or `"*."` followed by the requested domain. -/
theorem FindCertificate_eq_join_matching (dirs : List DirectoryCertificates)
    (domain : GoString) :
    FindCertificate dirs domain
      = ((dirs.filter (fun dir => decide (DirMatch dir domain))).map
          (fun dir => dir.Certificates)).flatten := by
  unfold FindCertificate
  rw [foldl_findStep]
  simp

/-- C2: `FindCertificate` returns the empty list if and only if no file of
any directory has a domain that contains the requested domain, or `"*."`
followed by the requested domain. -/
theorem FindCertificate_eq_nil_iff (dirs : List DirectoryCertificates) (domain : GoString) :
    FindCertificate dirs domain = []
      ↔ ¬ ∃ dir ∈ dirs, ∃ file ∈ dir.Certificates, ∃ d ∈ file.Domains,
            domain <:+: d ∨ (str "*." ++ domain) <:+: d := by
  unfold FindCertificate
  rw [foldl_findStep]
  simp only [List.nil_append, List.flatten_eq_nil_iff, List.mem_map, List.mem_filter,
    decide_eq_true_eq]
  constructor
  · rintro h ⟨dir, hdir, file, hfile, d, hd, hm⟩
    have hmatch : DirMatch dir domain := ⟨file, hfile, d, hd, hm⟩
    have := h dir.Certificates ⟨dir, ⟨hdir, hmatch⟩, rfl⟩
    rw [this] at hfile
    exact absurd hfile (List.not_mem_nil _)
  · rintro h l ⟨dir, ⟨hdir, file, hfile, d, hd, hm⟩, rfl⟩
    exact absurd ⟨dir, hdir, file, hfile, d, hd, hm⟩ h

/-! ## The key authorization check -/

theorem or_eq_zero_iff (a b : Nat) : a ||| b = 0 ↔ a = 0 ∧ b = 0 := by
  constructor
  · intro h
    have hbit : ∀ i, a.testBit i = false ∧ b.testBit i = false := by
      intro i
      have hi := congrArg (fun n => n.testBit i) h
      simpa [Nat.testBit_or] using hi
    constructor
    · apply Nat.eq_of_testBit_eq
      intro i
      simp [(hbit i).1]
    · apply Nat.eq_of_testBit_eq
      intro i
      simp [(hbit i).2]
  · rintro ⟨rfl, rfl⟩
    simp

theorem xorFold_lt (x y : GoString) (v : Nat) (hv : v < 2 ^ 8) : xorFold v x y < 2 ^ 8 := by
  induction x generalizing y v with
  | nil => simpa [xorFold] using hv
  | cons a x ih =>
    cases y with
    | nil => simpa [xorFold] using hv
    | cons b y =>
      simp only [xorFold]
      apply ih
      apply Nat.or_lt_two_pow hv
      exact Nat.xor_lt_two_pow (by simpa using a.toNat_lt) (by simpa using b.toNat_lt)

theorem xorFold_eq_zero_iff (x y : GoString) (v : Nat) (hlen : x.length = y.length) :
    xorFold v x y = 0 ↔ v = 0 ∧ x = y := by
  induction x generalizing y v with
  | nil =>
    cases y with
    | nil => simp [xorFold]
    | cons b y => simp at hlen
  | cons a x ih =>
    cases y with
    | nil => simp at hlen
    | cons b y =>
      simp only [xorFold, List.length_cons, Nat.add_right_cancel_iff] at hlen ⊢
      rw [ih y _ hlen, or_eq_zero_iff, Nat.xor_eq_zero]
      constructor
      · rintro ⟨⟨hv, hab⟩, rfl⟩
        exact ⟨hv, by rw [UInt8.ext hab]⟩
      · rintro ⟨hv, heq⟩
        injection heq with h1 h2
        exact ⟨⟨hv, by rw [h1]⟩, h2⟩

theorem ConstantTimeByteEq_zero (v : Nat) (hv : v < 2 ^ 8) :
    ConstantTimeByteEq v 0 = 1 ↔ v = 0 := by
  unfold ConstantTimeByteEq
  rw [Nat.xor_zero, Nat.shiftRight_eq_div_pow]
  constructor
  · intro h
    by_contra hne
    have h1 : (v + 2 ^ 32 - 1) % 2 ^ 32 = v - 1 := by omega
    rw [h1] at h
    have h2 : (v - 1) / 2 ^ 31 = 0 := by
      apply Nat.div_eq_of_lt
      omega
    omega
  · rintro rfl
    norm_num

theorem ConstantTimeCompare_eq_one_iff (x y : GoString) :
    ConstantTimeCompare x y = 1 ↔ x = y := by
  unfold ConstantTimeCompare
  by_cases hlen : x.length = y.length
  · simp only [hlen, ne_eq, not_true_eq_false, if_false]
    rw [ConstantTimeByteEq_zero _ (xorFold_lt x y 0 (by norm_num)), xorFold_eq_zero_iff x y 0 hlen]
    simp
  · simp only [ne_eq, hlen, not_false_eq_true, if_true]
    constructor
    · intro h
      omega
    · intro h
      exact absurd (congrArg List.length h) hlen

theorem foldl_keyScanStep (reqPublicKey : GoString) (keys : List GoString) (s : KeyScan) :
    (keys.foldl (keyScanStep reqPublicKey) s).comparisons = s.comparisons + keys.length
      ∧ ((keys.foldl (keyScanStep reqPublicKey) s).found = true
          ↔ s.found = true ∨ reqPublicKey ∈ keys) := by
  induction keys generalizing s with
  | nil => simp
  | cons k ks ih =>
    rw [List.foldl_cons]
    obtain ⟨h1, h2⟩ := ih (keyScanStep reqPublicKey s k)
    refine ⟨?_, ?_⟩
    · rw [h1]
      simp only [keyScanStep, List.length_cons]
      omega
    · rw [h2]
      simp only [keyScanStep, List.mem_cons]
      by_cases hc : ConstantTimeCompare k reqPublicKey = 1
      · have hk : reqPublicKey = k := ((ConstantTimeCompare_eq_one_iff _ _).mp hc).symm
        simp only [hc, if_true, true_or, true_iff]
        exact Or.inr (Or.inl hk)
      · have hk : ¬ k = reqPublicKey := fun h => hc ((ConstantTimeCompare_eq_one_iff _ _).mpr h)
        have hk' : ¬ reqPublicKey = k := fun h => hk h.symm
        simp [hc, hk']

theorem validateAgePublicKey_none_iff (config : ServerModeConfig) (reqPublicKey : GoString) :
    validateAgePublicKey config reqPublicKey = none ↔ reqPublicKey ∈ config.PublicAgeKeys := by
  unfold validateAgePublicKey keyScan
  have h := (foldl_keyScanStep reqPublicKey config.PublicAgeKeys
    { found := false, comparisons := 0 }).2
  by_cases hf : (List.foldl (keyScanStep reqPublicKey) { found := false, comparisons := 0 }
      config.PublicAgeKeys).found = true
  · have hmem := h.mp hf
    simp only [Bool.false_eq_true, false_or] at hmem
    simp [hf, hmem]
  · have hmem : reqPublicKey ∉ config.PublicAgeKeys := fun hm => hf (h.mpr (Or.inr hm))
    simp [hf, hmem]

/-- C4: `validateAgePublicKey` returns no error if and only if the candidate
key is byte-for-byte equal to at least one entry of the allow-list; with an
empty allow-list it returns an error for every candidate. -/
theorem validateAgePublicKey_ok_iff_listed (config : ServerModeConfig)
    (reqPublicKey : GoString) :
    (validateAgePublicKey config reqPublicKey = none
        ↔ ∃ allowedKey ∈ config.PublicAgeKeys, allowedKey = reqPublicKey)
      ∧ validateAgePublicKey { config with PublicAgeKeys := [] } reqPublicKey ≠ none := by
  constructor
  · rw [validateAgePublicKey_none_iff]
    simp
  · rw [ne_eq, validateAgePublicKey_none_iff]
    simp

/-- C5: `validateAgePublicKey` makes exactly one constant-time comparison per
allow-list entry: the number of comparisons is the length of the allow-list,
whether or not an entry matches and wherever it stands, so it is the same for
any two candidate keys. -/
theorem validateAgePublicKey_comparisons (config : ServerModeConfig)
    (reqPublicKey otherKey : GoString) :
    (keyScan config reqPublicKey).comparisons = config.PublicAgeKeys.length
      ∧ (keyScan config reqPublicKey).comparisons = (keyScan config otherKey).comparisons := by
  unfold keyScan
  rw [(foldl_keyScanStep reqPublicKey config.PublicAgeKeys _).1,
    (foldl_keyScanStep otherKey config.PublicAgeKeys _).1]
  simp

/-! ## The server handler -/

theorem Time.IsZero_eq_true_iff (t : Time) : t.IsZero = true ↔ t = Time.zero := by
  cases t with
  | mk n => simp [Time.IsZero, Time.zero]

theorem Time.After_eq_true_iff (t u : Time) : t.After u = true ↔ u.nanos < t.nanos := by
  simp [Time.After]

theorem ResponseWriter.status_Error_fresh (msg : GoString) (code : Nat) :
    (ResponseWriter.fresh.Error msg code).status = code := by
  simp [ResponseWriter.Error, ResponseWriter.fresh, ResponseWriter.HeaderDel,
    ResponseWriter.HeaderSet, ResponseWriter.WriteHeader, ResponseWriter.Write]

theorem ResponseWriter.body_Error_fresh (msg : GoString) (code : Nat) :
    (ResponseWriter.fresh.Error msg code).body = msg ++ str "\n" := by
  simp [ResponseWriter.Error, ResponseWriter.fresh, ResponseWriter.HeaderDel,
    ResponseWriter.HeaderSet, ResponseWriter.WriteHeader, ResponseWriter.Write]

theorem ResponseWriter.status_WriteHeader_fresh (code : Nat) :
    (ResponseWriter.fresh.WriteHeader code).status = code := by
  simp [ResponseWriter.fresh, ResponseWriter.WriteHeader]

theorem ResponseWriter.body_WriteHeader_fresh (code : Nat) :
    (ResponseWriter.fresh.WriteHeader code).body = [] := by
  simp [ResponseWriter.fresh, ResponseWriter.WriteHeader]

theorem ResponseWriter.status_data (data : GoString) (k v : GoString) :
    ((ResponseWriter.fresh.HeaderSet k v).Write data).status = 200 := by
  simp [ResponseWriter.fresh, ResponseWriter.HeaderSet, ResponseWriter.WriteHeader,
    ResponseWriter.Write]

theorem ResponseWriter.body_data (data : GoString) (k v : GoString) :
    ((ResponseWriter.fresh.HeaderSet k v).Write data).body = data := by
  simp [ResponseWriter.fresh, ResponseWriter.HeaderSet, ResponseWriter.WriteHeader,
    ResponseWriter.Write]

theorem ResponseWriter.status_data_Error (data msg : GoString) (k v : GoString) (code : Nat) :
    (((ResponseWriter.fresh.HeaderSet k v).Write data).Error msg code).status = 200 := by
  simp [ResponseWriter.Error, ResponseWriter.fresh, ResponseWriter.HeaderDel,
    ResponseWriter.HeaderSet, ResponseWriter.WriteHeader, ResponseWriter.Write]

theorem ResponseWriter.body_data_Error (data msg : GoString) (k v : GoString) (code : Nat) :
    (((ResponseWriter.fresh.HeaderSet k v).Write data).Error msg code).body
      = data ++ (msg ++ str "\n") := by
  simp [ResponseWriter.Error, ResponseWriter.fresh, ResponseWriter.HeaderDel,
    ResponseWriter.HeaderSet, ResponseWriter.WriteHeader, ResponseWriter.Write]

/-- The run of the handler on a POST request whose body is read and parsed
and whose domain resolves to a non-empty list, up to the freshness check. -/
theorem handle_fresh (W : World) (config : ServerModeConfig) (r : Request)
    (body : GoString) (req : CertificateRequest) (first : CertificateInfo)
    (rest : List CertificateInfo)
    (hm : r.Method = MethodPost) (hb : r.Body = .ok body) (hj : W.Unmarshal body = .ok req)
    (hf : FindCertificate (LoadCertificates W config.ServerDetails.CertificateDirectory)
      req.Domain = first :: rest)
    (hfresh : (!req.Expiration.IsZero && !(first.Expiration.After req.Expiration)) = true) :
    handleCertificateRequest W config r
      = { w := ResponseWriter.fresh.WriteHeader 304,
          calls := [Call.LoadCertificates, Call.FindCertificate] } := by
  simp only [handleCertificateRequest, hm, hb, hj, hf, ne_eq, not_true_eq_false, if_false]
  rw [if_pos hfresh]

/-- The run of the handler past the freshness check, when the key is refused. -/
theorem handle_forbidden (W : World) (config : ServerModeConfig) (r : Request)
    (body : GoString) (req : CertificateRequest) (first : CertificateInfo)
    (rest : List CertificateInfo)
    (hm : r.Method = MethodPost) (hb : r.Body = .ok body) (hj : W.Unmarshal body = .ok req)
    (hf : FindCertificate (LoadCertificates W config.ServerDetails.CertificateDirectory)
      req.Domain = first :: rest)
    (hfresh : (!req.Expiration.IsZero && !(first.Expiration.After req.Expiration)) = false)
    (hkey : req.AgePublicKey ∉ config.PublicAgeKeys) :
    handleCertificateRequest W config r
      = { w := ResponseWriter.fresh.Error (str "Public key not authorized") 403,
          calls := [Call.LoadCertificates, Call.FindCertificate, Call.validateAgePublicKey] } := by
  have hv : validateAgePublicKey config req.AgePublicKey
      = some (str "public key not whitelisted") := by
    unfold validateAgePublicKey
    have h := (foldl_keyScanStep req.AgePublicKey config.PublicAgeKeys
      { found := false, comparisons := 0 }).2
    have hnf : (keyScan config req.AgePublicKey).found = false := by
      cases hfd : (keyScan config req.AgePublicKey).found with
      | false => rfl
      | true =>
        have := h.mp hfd
        simp only [Bool.false_eq_true, false_or] at this
        exact absurd this hkey
    simp [hnf]
  simp only [handleCertificateRequest, hm, hb, hj, hf, ne_eq, not_true_eq_false, if_false]
  rw [if_neg (by simp [hfresh])]
  simp [hv]

/-- The run of the handler past the freshness check, when the key is accepted. -/
theorem handle_authorized (W : World) (config : ServerModeConfig) (r : Request)
    (body : GoString) (req : CertificateRequest) (first : CertificateInfo)
    (rest : List CertificateInfo)
    (hm : r.Method = MethodPost) (hb : r.Body = .ok body) (hj : W.Unmarshal body = .ok req)
    (hf : FindCertificate (LoadCertificates W config.ServerDetails.CertificateDirectory)
      req.Domain = first :: rest)
    (hfresh : (!req.Expiration.IsZero && !(first.Expiration.After req.Expiration)) = false)
    (hkey : req.AgePublicKey ∈ config.PublicAgeKeys) :
    handleCertificateRequest W config r
      = (let calls := [Call.LoadCertificates, Call.FindCertificate,
            Call.validateAgePublicKey, Call.EncryptAndZipCertificates]
         match EncryptAndZipCertificates W (first :: rest) req.AgePublicKey with
         | (_, some _) =>
           { w := ResponseWriter.fresh.Error (str "Internal server error") 500, calls := calls }
         | (encryptedData, none) =>
           let w2 := (ResponseWriter.fresh.HeaderSet (str "Content-Type")
             (str "application/octet-stream")).Write (encryptedData.getD [])
           match W.responseWrite (encryptedData.getD []) with
           | some _ => { w := w2.Error (str "Internal server error") 500, calls := calls }
           | none => { w := w2, calls := calls }) := by
  have hv : validateAgePublicKey config req.AgePublicKey = none :=
    (validateAgePublicKey_none_iff config req.AgePublicKey).mpr hkey
  simp only [handleCertificateRequest, hm, hb, hj, hf, ne_eq, not_true_eq_false, if_false]
  rw [if_neg (by simp [hfresh])]
  simp [hv]


theorem fresh_test_iff (req : CertificateRequest) (first : CertificateInfo) :
    (!req.Expiration.IsZero && !(first.Expiration.After req.Expiration)) = true
      ↔ req.Expiration ≠ Time.zero ∧ ¬ (req.Expiration.nanos < first.Expiration.nanos) := by
  rw [Bool.and_eq_true, Bool.not_eq_true', Bool.not_eq_true', ← Bool.not_eq_true,
    ← Bool.not_eq_true, Time.IsZero_eq_true_iff, Time.After_eq_true_iff]

theorem status_authorized_ne (W : World) (found : List CertificateInfo) (key : GoString) :
    (match EncryptAndZipCertificates W found key with
      | (_, some _) =>
        ({ w := ResponseWriter.fresh.Error (str "Internal server error") 500,
           calls := [Call.LoadCertificates, Call.FindCertificate,
             Call.validateAgePublicKey, Call.EncryptAndZipCertificates] } : Handled)
      | (encryptedData, none) =>
        match W.responseWrite (encryptedData.getD []) with
        | some _ =>
          { w := ((ResponseWriter.fresh.HeaderSet (str "Content-Type")
              (str "application/octet-stream")).Write (encryptedData.getD [])).Error
              (str "Internal server error") 500,
            calls := [Call.LoadCertificates, Call.FindCertificate,
              Call.validateAgePublicKey, Call.EncryptAndZipCertificates] }
        | none =>
          { w := (ResponseWriter.fresh.HeaderSet (str "Content-Type")
              (str "application/octet-stream")).Write (encryptedData.getD []),
            calls := [Call.LoadCertificates, Call.FindCertificate,
              Call.validateAgePublicKey, Call.EncryptAndZipCertificates] }).w.status
      = if (EncryptAndZipCertificates W found key).2 ≠ none then 500 else 200 := by
  rcases hE : EncryptAndZipCertificates W found key with ⟨data, err⟩
  cases err with
  | some e => simp [ResponseWriter.status_Error_fresh]
  | none =>
    cases hw : W.responseWrite (data.getD []) with
    | some e => simp [hw, ResponseWriter.status_data_Error]
    | none => simp [hw, ResponseWriter.status_data]

/-- The status of a run past parsing, by the checks in their order. -/
theorem status_after_parse (W : World) (config : ServerModeConfig) (r : Request)
    (body : GoString) (req : CertificateRequest)
    (hm : r.Method = MethodPost) (hb : r.Body = .ok body) (hj : W.Unmarshal body = .ok req) :
    (handleCertificateRequest W config r).w.status = statusAfterParse W config req := by
  unfold statusAfterParse
  cases hf : FindCertificate (LoadCertificates W config.ServerDetails.CertificateDirectory)
      req.Domain with
  | nil =>
    simp only [handleCertificateRequest, hm, hb, hj, hf, ne_eq, not_true_eq_false, if_false]
    exact ResponseWriter.status_Error_fresh _ _
  | cons first rest =>
    dsimp only
    by_cases hfresh : (!req.Expiration.IsZero && !(first.Expiration.After req.Expiration)) = true
    · rw [handle_fresh W config r body req first rest hm hb hj hf hfresh]
      rw [if_pos ((fresh_test_iff req first).mp hfresh)]
      exact ResponseWriter.status_WriteHeader_fresh _
    · have hfresh' : (!req.Expiration.IsZero && !(first.Expiration.After req.Expiration))
          = false := by simpa using hfresh
      rw [if_neg (fun h => hfresh ((fresh_test_iff req first).mpr h))]
      by_cases hkey : req.AgePublicKey ∈ config.PublicAgeKeys
      · rw [handle_authorized W config r body req first rest hm hb hj hf hfresh' hkey]
        rw [if_neg (by simpa using hkey)]
        exact status_authorized_ne W (first :: rest) req.AgePublicKey
      · rw [handle_forbidden W config r body req first rest hm hb hj hf hfresh' hkey]
        rw [if_pos hkey]
        exact ResponseWriter.status_Error_fresh _ _

/-- C3: for a POST request whose body is read and parsed and whose domain
resolves to a non-empty list, the handler responds 304 if and only if the
known expiration is non-zero and the expiration of the first resolved file is
not strictly after it. -/
theorem handle_status_304_iff (W : World) (config : ServerModeConfig) (r : Request)
    (body : GoString) (req : CertificateRequest) (first : CertificateInfo)
    (rest : List CertificateInfo)
    (hm : r.Method = MethodPost) (hb : r.Body = .ok body) (hj : W.Unmarshal body = .ok req)
    (hf : FindCertificate (LoadCertificates W config.ServerDetails.CertificateDirectory)
      req.Domain = first :: rest) :
    (handleCertificateRequest W config r).w.status = 304
      ↔ req.Expiration ≠ Time.zero ∧ ¬ (req.Expiration.nanos < first.Expiration.nanos) := by
  rw [status_after_parse W config r body req hm hb hj]
  unfold statusAfterParse
  rw [hf]
  simp only
  by_cases h : req.Expiration ≠ Time.zero ∧ ¬ (req.Expiration.nanos < first.Expiration.nanos)
  · simp [h]
  · rw [if_neg h]
    constructor
    · intro h304
      split at h304
      · omega
      · split at h304 <;> omega
    · intro h'
      exact absurd h' h

/-- Witness of C3 on the concrete world: a request that knows expiration 3 for
a certificate that expires at 3. -/
theorem handle_status_304_iff_witness :
    (handleCertificateRequest demoWorld demoConfig (post "example.com|age1k|eee")).w.status = 304
      ↔ (⟨3⟩ : Time) ≠ Time.zero ∧ ¬ ((3 : Int) < 3) :=
  handle_status_304_iff demoWorld demoConfig (post "example.com|age1k|eee")
    (str "example.com|age1k|eee")
    { Domain := str "example.com", AgePublicKey := str "age1k", Expiration := ⟨3⟩ }
    { Domains := [str "example.com"], Expiration := ⟨3⟩, FilePath := str "/certs/cert.pem",
      FileType := FileType.FileTypePublicCertificate }
    [{ Domains := [], Expiration := Time.zero, FilePath := str "/certs/privkey.pem",
       FileType := FileType.FileTypePrivateKey }]
    (by decide) rfl rfl (by decide)

/-- C6: freshness is decided before authorization. For a POST request whose
body is read and parsed, whose domain resolves to a non-empty list and whose
non-zero known expiration is not earlier than the expiration of the first
resolved file, the handler responds 304 with an empty body whatever the
requester key and the allow-list are, and neither `validateAgePublicKey` nor
`EncryptAndZipCertificates` is called. -/
theorem handle_fresh_before_authorization (W : World) (config : ServerModeConfig)
    (r : Request) (body : GoString) (req : CertificateRequest) (first : CertificateInfo)
    (rest : List CertificateInfo)
    (hm : r.Method = MethodPost) (hb : r.Body = .ok body) (hj : W.Unmarshal body = .ok req)
    (hf : FindCertificate (LoadCertificates W config.ServerDetails.CertificateDirectory)
      req.Domain = first :: rest)
    (hnz : req.Expiration ≠ Time.zero)
    (hle : first.Expiration.nanos ≤ req.Expiration.nanos) :
    (handleCertificateRequest W config r).w.status = 304
      ∧ (handleCertificateRequest W config r).w.body = []
      ∧ Call.validateAgePublicKey ∉ (handleCertificateRequest W config r).calls
      ∧ Call.EncryptAndZipCertificates ∉ (handleCertificateRequest W config r).calls := by
  have hfresh : (!req.Expiration.IsZero && !(first.Expiration.After req.Expiration)) = true :=
    (fresh_test_iff req first).mpr ⟨hnz, by omega⟩
  rw [handle_fresh W config r body req first rest hm hb hj hf hfresh]
  refine ⟨ResponseWriter.status_WriteHeader_fresh _, ResponseWriter.body_WriteHeader_fresh _,
    by decide, by decide⟩

/-- Witness of C6 on the concrete world: the request carries a key that is
not on the allow-list and knows expiration 3 for a certificate expiring at 3. -/
theorem handle_fresh_before_authorization_witness :
    (handleCertificateRequest demoWorld demoConfig (post "example.com|age1x|eee")).w.status = 304
      ∧ (handleCertificateRequest demoWorld demoConfig (post "example.com|age1x|eee")).w.body = []
      ∧ Call.validateAgePublicKey
          ∉ (handleCertificateRequest demoWorld demoConfig (post "example.com|age1x|eee")).calls
      ∧ Call.EncryptAndZipCertificates
          ∉ (handleCertificateRequest demoWorld demoConfig (post "example.com|age1x|eee")).calls :=
  handle_fresh_before_authorization demoWorld demoConfig (post "example.com|age1x|eee")
    (str "example.com|age1x|eee")
    { Domain := str "example.com", AgePublicKey := str "age1x", Expiration := ⟨3⟩ }
    { Domains := [str "example.com"], Expiration := ⟨3⟩, FilePath := str "/certs/cert.pem",
      FileType := FileType.FileTypePublicCertificate }
    [{ Domains := [], Expiration := Time.zero, FilePath := str "/certs/privkey.pem",
       FileType := FileType.FileTypePrivateKey }]
    (by decide) rfl rfl (by decide) (by decide) (by decide)

/-- C7: for a POST request whose body is read and parsed, whose domain
resolves to a non-empty list and which passes the freshness check (known
expiration zero, or expiration of the first resolved file strictly after it),
a requester key that equals no allow-list entry gives status 403, the body is
the refusal message, and `EncryptAndZipCertificates` is not called. -/
theorem handle_unlisted_key_forbidden (W : World) (config : ServerModeConfig)
    (r : Request) (body : GoString) (req : CertificateRequest) (first : CertificateInfo)
    (rest : List CertificateInfo)
    (hm : r.Method = MethodPost) (hb : r.Body = .ok body) (hj : W.Unmarshal body = .ok req)
    (hf : FindCertificate (LoadCertificates W config.ServerDetails.CertificateDirectory)
      req.Domain = first :: rest)
    (hpass : req.Expiration = Time.zero ∨ req.Expiration.nanos < first.Expiration.nanos)
    (hkey : ∀ allowedKey ∈ config.PublicAgeKeys, allowedKey ≠ req.AgePublicKey) :
    (handleCertificateRequest W config r).w.status = 403
      ∧ (handleCertificateRequest W config r).w.body = str "Public key not authorized\n"
      ∧ Call.EncryptAndZipCertificates ∉ (handleCertificateRequest W config r).calls := by
  have hfresh : (!req.Expiration.IsZero && !(first.Expiration.After req.Expiration)) = false := by
    cases hc : (!req.Expiration.IsZero && !(first.Expiration.After req.Expiration)) with
    | false => rfl
    | true =>
      obtain ⟨h1, h2⟩ := (fresh_test_iff req first).mp hc
      rcases hpass with h | h
      · exact absurd h h1
      · exact absurd h h2
  have hmem : req.AgePublicKey ∉ config.PublicAgeKeys := fun h => hkey _ h rfl
  rw [handle_forbidden W config r body req first rest hm hb hj hf hfresh hmem]
  refine ⟨ResponseWriter.status_Error_fresh _ _, ?_, by decide⟩
  rw [ResponseWriter.body_Error_fresh]
  decide

/-- Witness of C7 on the concrete world: no known expiration, unlisted key. -/
theorem handle_unlisted_key_forbidden_witness :
    (handleCertificateRequest demoWorld demoConfig (post "example.com|age1x|")).w.status = 403
      ∧ (handleCertificateRequest demoWorld demoConfig (post "example.com|age1x|")).w.body
          = str "Public key not authorized\n"
      ∧ Call.EncryptAndZipCertificates
          ∉ (handleCertificateRequest demoWorld demoConfig (post "example.com|age1x|")).calls :=
  handle_unlisted_key_forbidden demoWorld demoConfig (post "example.com|age1x|")
    (str "example.com|age1x|")
    { Domain := str "example.com", AgePublicKey := str "age1x", Expiration := ⟨0⟩ }
    { Domains := [str "example.com"], Expiration := ⟨3⟩, FilePath := str "/certs/cert.pem",
      FileType := FileType.FileTypePublicCertificate }
    [{ Domains := [], Expiration := Time.zero, FilePath := str "/certs/privkey.pem",
       FileType := FileType.FileTypePrivateKey }]
    (by decide) rfl rfl (by decide) (by decide) (by decide)

theorem statusAfterParse_mem (W : World) (config : ServerModeConfig) (req : CertificateRequest) :
    statusAfterParse W config req ∈ [200, 304, 400, 403, 404, 405, 500] := by
  unfold statusAfterParse
  split
  · decide
  · split
    · decide
    · split
      · decide
      · split <;> decide

/-- The body handed to the response writer by a run that ends with status 200. -/
theorem body_of_status_200 (W : World) (config : ServerModeConfig) (r : Request)
    (body : GoString) (req : CertificateRequest)
    (hm : r.Method = MethodPost) (hb : r.Body = .ok body) (hj : W.Unmarshal body = .ok req)
    (h200 : (handleCertificateRequest W config r).w.status = 200) :
    ∃ ct, EncryptAndZipCertificates W
          (FindCertificate (LoadCertificates W config.ServerDetails.CertificateDirectory)
            req.Domain) req.AgePublicKey = (ct, none)
      ∧ ct.getD [] <+: (handleCertificateRequest W config r).w.body
      ∧ (W.responseWrite (ct.getD []) = none
          → (handleCertificateRequest W config r).w.body = ct.getD []) := by
  cases hf : FindCertificate (LoadCertificates W config.ServerDetails.CertificateDirectory)
      req.Domain with
  | nil =>
    exfalso
    simp only [handleCertificateRequest, hm, hb, hj, hf, ne_eq, not_true_eq_false, if_false]
      at h200
    rw [ResponseWriter.status_Error_fresh] at h200
    omega
  | cons first rest =>
    by_cases hfresh : (!req.Expiration.IsZero && !(first.Expiration.After req.Expiration)) = true
    · exfalso
      rw [handle_fresh W config r body req first rest hm hb hj hf hfresh,
        ResponseWriter.status_WriteHeader_fresh] at h200
      omega
    · have hfresh' : (!req.Expiration.IsZero && !(first.Expiration.After req.Expiration))
          = false := by simpa using hfresh
      by_cases hkey : req.AgePublicKey ∈ config.PublicAgeKeys
      · rw [handle_authorized W config r body req first rest hm hb hj hf hfresh' hkey] at h200 ⊢
        rcases hE : EncryptAndZipCertificates W (first :: rest) req.AgePublicKey with ⟨ct, err⟩
        rw [hE] at h200
        cases err with
        | some e =>
          exfalso
          simp only [ResponseWriter.status_Error_fresh] at h200
          omega
        | none =>
          refine ⟨ct, rfl, ?_, ?_⟩
          · cases hw : W.responseWrite (ct.getD []) with
            | some e =>
              simp only [hw, ResponseWriter.body_data_Error]
              exact List.prefix_append _ _
            | none =>
              simp only [hw, ResponseWriter.body_data]
              exact List.prefix_refl _
          · intro hw
            simp only [hw, ResponseWriter.body_data]
      · exfalso
        rw [handle_forbidden W config r body req first rest hm hb hj hf hfresh' hkey,
          ResponseWriter.status_Error_fresh] at h200
        omega

/-- Counterexample to C8 as stated: a POST request whose body cannot be read
is answered 500, although the claimed order gives 400 for a body that is not
valid JSON and 500 only for a packaging failure; the packager is not called
in this run. -/
theorem handle_status_claimed_order_fails :
    (handleCertificateRequest demoWorld demoConfig brokenPost).w.status
        ≠ claimedStatus demoWorld demoConfig brokenPost
      ∧ (handleCertificateRequest demoWorld demoConfig brokenPost).w.status = 500
      ∧ brokenPost.Method = MethodPost
      ∧ Call.EncryptAndZipCertificates
          ∉ (handleCertificateRequest demoWorld demoConfig brokenPost).calls := by
  decide

/-- C8, amended: the status of the handler is that of the first failing check
in the order non-POST method (405), unreadable body (500), body that is not
valid JSON (400), empty resolution result (404), freshness (304), unlisted key
(403), packaging failure (500), and 200 otherwise; it is always one of 200,
304, 400, 403, 404, 405, 500; and with status 200 the bytes handed to the
response writer begin with the ciphertext the packager returned for the
resolved files and the requester key, and are exactly that ciphertext when
the write reports no error. -/
theorem handle_status_ordered (W : World) (config : ServerModeConfig) (r : Request) :
    (handleCertificateRequest W config r).w.status = orderedStatus W config r
      ∧ (handleCertificateRequest W config r).w.status ∈ [200, 304, 400, 403, 404, 405, 500]
      ∧ ((handleCertificateRequest W config r).w.status = 200 →
          ∃ req ct, parsedRequest W r = some req
            ∧ EncryptAndZipCertificates W
                (FindCertificate (LoadCertificates W config.ServerDetails.CertificateDirectory)
                  req.Domain) req.AgePublicKey = (ct, none)
            ∧ ct.getD [] <+: (handleCertificateRequest W config r).w.body
            ∧ (W.responseWrite (ct.getD []) = none
                → (handleCertificateRequest W config r).w.body = ct.getD [])) := by
  by_cases hm : r.Method = MethodPost
  · cases hb : r.Body with
    | error e =>
      have hs : (handleCertificateRequest W config r).w.status = 500 := by
        simp only [handleCertificateRequest, hm, hb, ne_eq, not_true_eq_false, if_false]
        exact ResponseWriter.status_Error_fresh _ _
      refine ⟨?_, ?_, ?_⟩
      · rw [hs]
        simp [orderedStatus, hm, hb]
      · rw [hs]
        decide
      · intro h
        omega
    | ok body =>
      cases hj : W.Unmarshal body with
      | error e =>
        have hs : (handleCertificateRequest W config r).w.status = 400 := by
          simp only [handleCertificateRequest, hm, hb, hj, ne_eq, not_true_eq_false, if_false]
          exact ResponseWriter.status_Error_fresh _ _
        refine ⟨?_, ?_, ?_⟩
        · rw [hs]
          simp [orderedStatus, hm, hb, hj]
        · rw [hs]
          decide
        · intro h
          omega
      | ok req =>
        have hs := status_after_parse W config r body req hm hb hj
        refine ⟨?_, ?_, ?_⟩
        · rw [hs]
          simp [orderedStatus, hm, hb, hj]
        · rw [hs]
          exact statusAfterParse_mem W config req
        · intro h200
          obtain ⟨ct, h1, h2, h3⟩ := body_of_status_200 W config r body req hm hb hj h200
          exact ⟨req, ct, by simp [parsedRequest, hb, hj], h1, h2, h3⟩
  · have hs : (handleCertificateRequest W config r).w.status = 405 := by
      simp only [handleCertificateRequest, hm, ne_eq, not_false_eq_true, if_true]
      exact ResponseWriter.status_Error_fresh _ _
    refine ⟨?_, ?_, ?_⟩
    · rw [hs]
      simp [orderedStatus, hm]
    · rw [hs]
      decide
    · intro h
      omega

/-! ## The transfer packager -/

/-- The entries the loop of `EncryptAndZipCertificates` leaves in the writer
when it succeeds: the entries it started with, then one entry per file, in
order, named by the base name of the file and holding the bytes read. -/
theorem zipFiles_ok (W : World) (certificates : List CertificateInfo)
    (acc entries : List ZipEntry) (h : zipFiles W acc certificates = .ok entries) :
    ∃ added, entries = acc ++ added
      ∧ List.Forall₂ (fun (e : ZipEntry) (c : CertificateInfo) =>
          e.Name = Base c.FilePath ∧ W.ReadFile c.FilePath = .ok e.Data) added certificates := by
  induction certificates generalizing acc with
  | nil =>
    simp only [zipFiles, Except.ok.injEq] at h
    exact ⟨[], by simp [h], List.Forall₂.nil⟩
  | cons c rest ih =>
    unfold zipFiles at h
    cases hr : W.ReadFile c.FilePath with
    | error e => simp [hr] at h
    | ok fileData =>
      cases hc : W.zipCreate acc (Base c.FilePath) with
      | some e => simp [hr, hc] at h
      | none =>
        cases hw : W.zipWrite acc (Base c.FilePath) fileData with
        | some e => simp [hr, hc, hw] at h
        | none =>
          simp only [hr, hc, hw] at h
          obtain ⟨added, hadd, hall⟩ := ih _ h
          refine ⟨{ Name := Base c.FilePath, Data := fileData } :: added, ?_, ?_⟩
          · rw [hadd]
            simp
          · exact List.Forall₂.cons ⟨rfl, hr⟩ hall

/-- The loop of `EncryptAndZipCertificates` succeeds when every file is
readable and the zip writer does not fail. -/
theorem zipFiles_succeeds (W : World) (hzip : ZipContract W)
    (certificates : List CertificateInfo) (acc : List ZipEntry)
    (hread : ∀ c ∈ certificates, ∃ data, W.ReadFile c.FilePath = .ok data) :
    ∃ entries, zipFiles W acc certificates = .ok entries := by
  induction certificates generalizing acc with
  | nil => exact ⟨acc, rfl⟩
  | cons c rest ih =>
    obtain ⟨data, hd⟩ := hread c (List.mem_cons_self _ _)
    unfold zipFiles
    simp only [hd, hzip.create_ok, hzip.write_ok]
    exact ih _ (fun c' hc' => hread c' (List.mem_cons_of_mem _ hc'))

/-! ## The base name of a path -/

theorem dropWhile_cases {α : Type} (p : α → Bool) (l : List α) :
    l.dropWhile p = [] ∨ ∃ x xs, l.dropWhile p = x :: xs ∧ p x = false := by
  induction l with
  | nil => exact Or.inl rfl
  | cons a as ih =>
    cases hp : p a with
    | true => simpa [List.dropWhile_cons, hp] using ih
    | false => exact Or.inr ⟨a, as, by simp [List.dropWhile_cons, hp], hp⟩

theorem takeWhile_eq_nil_cases {α : Type} (q : α → Bool) (l : List α)
    (h : l.takeWhile q = []) : l = [] ∨ ∃ x xs, l = x :: xs ∧ q x = false := by
  cases l with
  | nil => exact Or.inl rfl
  | cons a as =>
    cases hq : q a with
    | true => simp [List.takeWhile_cons, hq] at h
    | false => exact Or.inr ⟨a, as, rfl, hq⟩

/-- `filepath.Base` returns the base name of the path: the last element, with
no separator in it, trailing separators removed. -/
theorem Base_isBaseNameOf (path : GoString) : IsBaseNameOf (Base path) path := by
  unfold Base
  by_cases hp : path = []
  · rw [if_pos hp]
    exact Or.inl ⟨hp, rfl⟩
  · rw [if_neg hp]
    simp only [List.reverse_reverse]
    have hsplit1 := List.takeWhile_append_dropWhile (fun c : UInt8 => decide (c = 47))
      path.reverse
    have hsplit2 := List.takeWhile_append_dropWhile (fun c : UInt8 => decide (c ≠ 47))
      (path.reverse.dropWhile (fun c => decide (c = 47)))
    have hpath : path
        = ((path.reverse.dropWhile (fun c => decide (c = 47))).dropWhile
              (fun c => decide (c ≠ 47))).reverse
          ++ ((path.reverse.dropWhile (fun c => decide (c = 47))).takeWhile
              (fun c => decide (c ≠ 47))).reverse
          ++ (path.reverse.takeWhile (fun c => decide (c = 47))).reverse := by
      rw [← List.reverse_append, ← List.reverse_append, hsplit2, hsplit1,
        List.reverse_reverse]
    have htrail : ∀ c ∈ (path.reverse.takeWhile (fun c => decide (c = 47))).reverse,
        c = 47 := by
      intro c hc
      simpa using List.mem_takeWhile_imp (List.mem_reverse.mp hc)
    by_cases hn : (path.reverse.dropWhile (fun c => decide (c = 47))).takeWhile
        (fun c => decide (c ≠ 47)) = []
    · rw [hn]
      simp only [List.reverse_nil, if_true]
      refine Or.inr (Or.inl ⟨hp, ?_, rfl⟩)
      have hd : path.reverse.dropWhile (fun c => decide (c = 47)) = [] := by
        rcases dropWhile_cases (fun c : UInt8 => decide (c = 47)) path.reverse with h | h
        · exact h
        · obtain ⟨x, xs, hx, hpx⟩ := h
          rcases takeWhile_eq_nil_cases _ _ hn with h1 | ⟨y, ys, hy, hqy⟩
          · exact h1
          · rw [hx] at hy
            injection hy with e1 _
            subst e1
            simp at hpx hqy
            exact absurd hqy hpx
      intro c hc
      have hall : path.reverse.takeWhile (fun c => decide (c = 47)) = path.reverse := by
        have := hsplit1
        rw [hd, List.append_nil] at this
        exact this
      have hc1 : c ∈ (path.reverse.takeWhile (fun c => decide (c = 47))).reverse := by
        rw [hall, List.reverse_reverse]
        exact hc
      exact htrail c hc1
    · have hne : ¬ ((path.reverse.dropWhile (fun c => decide (c = 47))).takeWhile
          (fun c => decide (c ≠ 47))).reverse = [] := by
        simpa using hn
      rw [if_neg hne]
      refine Or.inr (Or.inr ⟨_, _, hpath, ?_, htrail, hne, ?_⟩)
      · rcases dropWhile_cases (fun c : UInt8 => decide (c ≠ 47))
          (path.reverse.dropWhile (fun c => decide (c = 47))) with h | ⟨x, xs, hx, hqx⟩
        · left
          rw [h]
          rfl
        · right
          rw [hx]
          have hx47 : x = 47 := by simpa using hqx
          subst hx47
          exact ⟨xs.reverse, by simp⟩
      · intro hm
        have := List.mem_takeWhile_imp (List.mem_reverse.mp hm)
        simp at this

theorem forall₂_chain {α β γ : Type} {R : α → β → Prop} {S : β → γ → Prop}
    {T : α → γ → Prop} (h : ∀ a b c, R a b → S b c → T a c) :
    ∀ {l1 : List α} {l2 : List β} {l3 : List γ},
      List.Forall₂ R l1 l2 → List.Forall₂ S l2 l3 → List.Forall₂ T l1 l3
  | _, _, _, List.Forall₂.nil, List.Forall₂.nil => List.Forall₂.nil
  | _, _, _, List.Forall₂.cons h1 t1, List.Forall₂.cons h2 t2 =>
    List.Forall₂.cons (h _ _ _ h1 h2) (forall₂_chain h t1 t2)

/-- C9: round trip. With the zip and age packages meeting their contracts,
for readable files and a key pair, `EncryptAndZipCertificates` returns a
ciphertext, `decryptWithAge` with the private key returns an archive from it,
and the archive lists one file per input file, in order, with content
byte-identical to the input file and under the base name of the input file:
the last element of its path, without any directory part. -/
theorem encrypt_decrypt_roundtrip (W : World) (hzip : ZipContract W) (hage : AgeContract W)
    (certificates : List CertificateInfo) (publicKey privateKey : GoString)
    (hread : ∀ c ∈ certificates, ∃ data, W.ReadFile c.FilePath = .ok data)
    (hpair : KeyPair W publicKey privateKey) :
    ∃ ciphertext archive files,
      EncryptAndZipCertificates W certificates publicKey = (some ciphertext, none)
        ∧ decryptWithAge W ciphertext privateKey = (some archive, none)
        ∧ W.zipNewReader archive = .ok files
        ∧ List.Forall₂ (fun (f : ZipFile) (c : CertificateInfo) =>
            f.Name = Base c.FilePath ∧ IsBaseNameOf f.Name c.FilePath
              ∧ f.Content = W.ReadFile c.FilePath) files certificates := by
  obtain ⟨identity, hid, hrec⟩ := hpair
  obtain ⟨entries, hentries⟩ := zipFiles_succeeds W hzip certificates [] hread
  obtain ⟨added, hadd, hall⟩ := zipFiles_ok W certificates [] entries hentries
  rw [List.nil_append] at hadd
  subst hadd
  obtain ⟨archive, harchive⟩ := hzip.close_ok entries
  obtain ⟨files, hfiles, hback⟩ := hzip.read_back entries archive harchive
  obtain ⟨ciphertext, hct⟩ := hage.close_ok identity.Recipient archive
  obtain ⟨hdec, hplain⟩ := hage.decrypt_ok identity archive ciphertext hct
  refine ⟨ciphertext, archive, files, ?_, ?_, hfiles, ?_⟩
  · simp [EncryptAndZipCertificates, hentries, harchive, encryptZip, hrec, hage.encrypt_ok,
      hage.copy_ok, hct]
  · simp [decryptWithAge, hid, hdec, hplain]
  · exact forall₂_chain
      (fun f e c hfe hec =>
        ⟨hfe.1.trans hec.1, by rw [hfe.1, hec.1]; exact Base_isBaseNameOf c.FilePath,
          hfe.2.trans hec.2.symm⟩)
      hback hall

theorem decStr_encStr (s rest : GoString) : decStr (encStr s ++ rest) = some (s, rest) := by
  induction s with
  | nil => simp [encStr, decStr]
  | cons b s ih =>
    have h : encStr (b :: s) ++ rest = 1 :: b :: (encStr s ++ rest) := by
      simp [encStr]
    rw [h, decStr, ih]
    rfl

theorem encEntries_cons (e : ZipEntry) (es : List ZipEntry) :
    encEntries (e :: es) = encStr e.Name ++ (encStr e.Data ++ encEntries es) := by
  simp [encEntries]

theorem encStr_ne_nil (s : GoString) : encStr s ≠ [] := by
  simp [encStr]

theorem decEntries_encEntries (es : List ZipEntry) (fuel : Nat) (h : es.length ≤ fuel) :
    decEntries fuel (encEntries es) = some es := by
  induction es generalizing fuel with
  | nil =>
    cases fuel with
    | zero => simp [encEntries, decEntries]
    | succ n => simp [encEntries, decEntries]
  | cons e es ih =>
    cases fuel with
    | zero => simp at h
    | succ n =>
      have hne : encEntries (e :: es) ≠ [] := by
        rw [encEntries_cons]
        simp [encStr_ne_nil]
      have hlen : es.length ≤ n := by simpa using h
      rw [decEntries, if_neg hne, encEntries_cons, decStr_encStr]
      simp only [decStr_encStr, ih n hlen, Option.map_some']

theorem length_le_encEntries (es : List ZipEntry) : es.length ≤ (encEntries es).length := by
  induction es with
  | nil => simp [encEntries]
  | cons e es ih =>
    rw [encEntries_cons]
    simp only [List.length_cons, List.length_append, encStr]
    simp only [List.length_append, List.length_cons, List.length_nil]
    omega

theorem demoWorld_zip : ZipContract demoWorld where
  create_ok := fun _ _ => rfl
  write_ok := fun _ _ _ => rfl
  close_ok := fun entries => ⟨encEntries entries, rfl⟩
  read_back := by
    intro entries buf h
    have hbuf : buf = encEntries entries := by
      simp only [demoWorld, Except.ok.injEq] at h
      exact h.symm
    subst hbuf
    refine ⟨entries.map ZipEntry.toFile, ?_, ?_⟩
    · simp only [demoWorld]
      rw [decEntries_encEntries entries _ (length_le_encEntries entries)]
    · induction entries with
      | nil => exact List.Forall₂.nil
      | cons e es ih => exact List.Forall₂.cons ⟨rfl, rfl⟩ (ih rfl)

theorem demoWorld_age : AgeContract demoWorld where
  encrypt_ok := fun _ => rfl
  copy_ok := fun _ _ => rfl
  close_ok := fun recipient plaintext => ⟨recipient.theirPublicKey ++ plaintext.reverse, rfl⟩
  decrypt_ok := by
    intro identity plaintext ciphertext h
    have hct : ciphertext = identity.ourPublicKey ++ plaintext.reverse := by
      simp only [demoWorld, X25519Identity.Recipient, Except.ok.injEq] at h
      exact h.symm
    subst hct
    constructor
    · simp [demoWorld, HasPrefix]
    · simp [demoWorld]

/-- Witness of C9 on the concrete world: the two files of `/certs` and the key
pair `age1k`, `AGE-SECRET-KEY-1k`. -/
theorem encrypt_decrypt_roundtrip_witness :
    ∃ ciphertext archive files,
      EncryptAndZipCertificates demoWorld
          [fileAt "/certs/cert.pem", fileAt "/certs/privkey.pem"] (str "age1k")
          = (some ciphertext, none)
        ∧ decryptWithAge demoWorld ciphertext (str "AGE-SECRET-KEY-1k") = (some archive, none)
        ∧ demoWorld.zipNewReader archive = .ok files
        ∧ List.Forall₂ (fun (f : ZipFile) (c : CertificateInfo) =>
            f.Name = Base c.FilePath ∧ IsBaseNameOf f.Name c.FilePath
              ∧ f.Content = demoWorld.ReadFile c.FilePath) files
            [fileAt "/certs/cert.pem", fileAt "/certs/privkey.pem"] :=
  encrypt_decrypt_roundtrip demoWorld demoWorld_zip demoWorld_age
    [fileAt "/certs/cert.pem", fileAt "/certs/privkey.pem"] (str "age1k")
    (str "AGE-SECRET-KEY-1k")
    (by
      intro c hc
      simp only [List.mem_cons, List.mem_singleton, List.not_mem_nil, or_false] at hc
      rcases hc with rfl | rfl
      · exact ⟨str "Cexample.com", rfl⟩
      · exact ⟨str "Ksecret", rfl⟩)
    ⟨{ secretKey := str "k", ourPublicKey := str "k" }, rfl, rfl⟩

/-- Counterexample to C10 as stated: with the directories `/certs` and
`/backup` scanned, the domain `example.com` resolves to three files, two of
them with base name `cert.pem`; the archive built from them holds three
entries, two of them named `cert.pem`, each with the content of its own file,
not a single entry under that name. -/
theorem zip_same_base_name_two_entries :
    (FindCertificate (LoadCertificates demoWorld [str "/certs", str "/backup"])
        (str "example.com")).map (fun c => c.FilePath)
        = [str "/certs/cert.pem", str "/certs/privkey.pem", str "/backup/cert.pem"]
      ∧ Base (str "/certs/cert.pem") = Base (str "/backup/cert.pem")
      ∧ zipFiles demoWorld []
          (FindCertificate (LoadCertificates demoWorld [str "/certs", str "/backup"])
            (str "example.com"))
          = .ok [{ Name := str "cert.pem", Data := str "Cexample.com" },
                 { Name := str "privkey.pem", Data := str "Ksecret" },
                 { Name := str "cert.pem", Data := str "Cold.example.com" }] :=
  ⟨by decide, by decide, rfl⟩

/-- C10, amended: when `EncryptAndZipCertificates` returns no error, the
archive it closed holds exactly one entry per input file, in input order, each
named by the base name of the input file and holding the bytes read from it;
input files with the same base name give as many entries under that name. -/
theorem archive_entry_per_file (W : World) (certificates : List CertificateInfo)
    (publicKey : GoString)
    (h : (EncryptAndZipCertificates W certificates publicKey).2 = none) :
    ∃ entries zipBuf, zipFiles W [] certificates = .ok entries
      ∧ W.zipClose entries = .ok zipBuf
      ∧ EncryptAndZipCertificates W certificates publicKey = encryptZip W zipBuf publicKey
      ∧ entries.length = certificates.length
      ∧ entries.map ZipEntry.Name = certificates.map (fun c => Base c.FilePath)
      ∧ List.Forall₂ (fun (e : ZipEntry) (c : CertificateInfo) =>
          W.ReadFile c.FilePath = .ok e.Data) entries certificates := by
  unfold EncryptAndZipCertificates at h ⊢
  cases hz : zipFiles W [] certificates with
  | error e => simp [hz] at h
  | ok entries =>
    cases hc : W.zipClose entries with
    | error e => simp [hz, hc] at h
    | ok zipBuf =>
      obtain ⟨added, hadd, hall⟩ := zipFiles_ok W certificates [] entries hz
      rw [List.nil_append] at hadd
      subst hadd
      refine ⟨entries, zipBuf, rfl, hc, by simp [hc], hall.length_eq, ?_, ?_⟩
      · clear hz hc h
        induction hall with
        | nil => rfl
        | cons h1 _ ih => simp [h1.1, ih]
      · exact hall.imp (fun _ _ hec => hec.2)

/-- Witness of C10, amended, on the concrete world: the two files named
`cert.pem` are packaged without error. -/
theorem archive_entry_per_file_witness :
    ∃ entries zipBuf,
      zipFiles demoWorld [] [fileAt "/certs/cert.pem", fileAt "/backup/cert.pem"] = .ok entries
      ∧ demoWorld.zipClose entries = .ok zipBuf
      ∧ EncryptAndZipCertificates demoWorld
          [fileAt "/certs/cert.pem", fileAt "/backup/cert.pem"] (str "age1k")
          = encryptZip demoWorld zipBuf (str "age1k")
      ∧ entries.length = [fileAt "/certs/cert.pem", fileAt "/backup/cert.pem"].length
      ∧ entries.map ZipEntry.Name
          = [fileAt "/certs/cert.pem", fileAt "/backup/cert.pem"].map (fun c => Base c.FilePath)
      ∧ List.Forall₂ (fun (e : ZipEntry) (c : CertificateInfo) =>
          demoWorld.ReadFile c.FilePath = .ok e.Data) entries
          [fileAt "/certs/cert.pem", fileAt "/backup/cert.pem"] :=
  archive_entry_per_file demoWorld [fileAt "/certs/cert.pem", fileAt "/backup/cert.pem"]
    (str "age1k") rfl

theorem zipFiles_unreadable (W : World) (certificates : List CertificateInfo)
    (h : ∃ c ∈ certificates, ∃ e, W.ReadFile c.FilePath = .error e) (acc : List ZipEntry) :
    ∃ err, zipFiles W acc certificates = .error err := by
  induction certificates generalizing acc with
  | nil =>
    obtain ⟨c, hc, _⟩ := h
    exact absurd hc (List.not_mem_nil _)
  | cons c rest ih =>
    unfold zipFiles
    cases hr : W.ReadFile c.FilePath with
    | error e =>
      simp only []
      exact ⟨_, rfl⟩
    | ok fileData =>
      cases hcr : W.zipCreate acc (Base c.FilePath) with
      | some e =>
        simp only []
        exact ⟨_, rfl⟩
      | none =>
        cases hw : W.zipWrite acc (Base c.FilePath) fileData with
        | some e =>
          simp only [hw]
          exact ⟨_, rfl⟩
        | none =>
          simp only [hw]
          apply ih
          obtain ⟨c', hc', e, he⟩ := h
          rcases List.mem_cons.mp hc' with rfl | hmem
          · rw [hr] at he
            cases he
          · exact ⟨c', hmem, e, he⟩

theorem encryptZip_cases (W : World) (zipBuf publicKey : GoString) :
    (∃ recipient bytes, W.ParseX25519Recipient publicKey = .ok recipient
        ∧ W.ageEncrypt recipient = none ∧ W.ageCopy recipient zipBuf = none
        ∧ W.ageClose recipient zipBuf = .ok bytes
        ∧ encryptZip W zipBuf publicKey = (some bytes, none))
      ∨ ((∃ err, encryptZip W zipBuf publicKey = (none, some err))
        ∧ ((∃ e, W.ParseX25519Recipient publicKey = .error e)
          ∨ ∃ recipient, W.ParseX25519Recipient publicKey = .ok recipient
              ∧ (W.ageEncrypt recipient ≠ none ∨ W.ageCopy recipient zipBuf ≠ none
                ∨ ∃ e, W.ageClose recipient zipBuf = .error e))) := by
  cases hp : W.ParseX25519Recipient publicKey with
  | error e =>
    exact Or.inr ⟨⟨_, by simp only [encryptZip, hp]; rfl⟩, Or.inl ⟨e, rfl⟩⟩
  | ok recipient =>
    cases he : W.ageEncrypt recipient with
    | some e =>
      exact Or.inr ⟨⟨_, by simp only [encryptZip, hp, he]; rfl⟩,
        Or.inr ⟨recipient, rfl, Or.inl (by simp [he])⟩⟩
    | none =>
      cases hc : W.ageCopy recipient zipBuf with
      | some e =>
        exact Or.inr ⟨⟨_, by simp only [encryptZip, hp, he, hc]; rfl⟩,
          Or.inr ⟨recipient, rfl, Or.inr (Or.inl (by simp [hc]))⟩⟩
      | none =>
        cases hcl : W.ageClose recipient zipBuf with
        | error e =>
          exact Or.inr ⟨⟨_, by simp only [encryptZip, hp, he, hc, hcl]; rfl⟩,
            Or.inr ⟨recipient, rfl, Or.inr (Or.inr ⟨e, hcl⟩)⟩⟩
        | ok bytes =>
          exact Or.inl ⟨recipient, bytes, rfl, he, hc, hcl,
            by simp only [encryptZip, hp, he, hc, hcl]⟩

/-- C11: `EncryptAndZipCertificates` never returns partial output. Its result
is either bytes with a nil error or nil bytes with an error; it is nil bytes
with an error whenever a listed file cannot be read, whenever the public key
does not parse, and whenever building the archive, closing it or a step of the
encryption fails; it is bytes with a nil error exactly when every step
succeeded. -/
theorem EncryptAndZipCertificates_no_partial_output (W : World)
    (certificates : List CertificateInfo) (publicKey : GoString) :
    ((∃ bytes, EncryptAndZipCertificates W certificates publicKey = (some bytes, none))
        ∨ (∃ err, EncryptAndZipCertificates W certificates publicKey = (none, some err)))
      ∧ ((∃ c ∈ certificates, ∃ e, W.ReadFile c.FilePath = .error e) →
          ∃ err, EncryptAndZipCertificates W certificates publicKey = (none, some err))
      ∧ ((∃ e, W.ParseX25519Recipient publicKey = .error e) →
          ∃ err, EncryptAndZipCertificates W certificates publicKey = (none, some err))
      ∧ ((∃ e, zipFiles W [] certificates = .error e) →
          ∃ err, EncryptAndZipCertificates W certificates publicKey = (none, some err))
      ∧ (∀ entries, zipFiles W [] certificates = .ok entries →
          (∃ e, W.zipClose entries = .error e) →
          ∃ err, EncryptAndZipCertificates W certificates publicKey = (none, some err))
      ∧ (∀ entries zipBuf recipient, zipFiles W [] certificates = .ok entries →
          W.zipClose entries = .ok zipBuf →
          W.ParseX25519Recipient publicKey = .ok recipient →
          (W.ageEncrypt recipient ≠ none ∨ W.ageCopy recipient zipBuf ≠ none
            ∨ ∃ e, W.ageClose recipient zipBuf = .error e) →
          ∃ err, EncryptAndZipCertificates W certificates publicKey = (none, some err)) := by
  have hzipErr : ∀ e, zipFiles W [] certificates = .error e →
      ∃ err, EncryptAndZipCertificates W certificates publicKey = (none, some err) := by
    intro e he
    exact ⟨e, by simp only [EncryptAndZipCertificates, he]⟩
  have hcloseErr : ∀ entries e, zipFiles W [] certificates = .ok entries →
      W.zipClose entries = .error e →
      ∃ err, EncryptAndZipCertificates W certificates publicKey = (none, some err) := by
    intro entries e hz hc
    exact ⟨_, by simp only [EncryptAndZipCertificates, hz, hc]; rfl⟩
  have hafter : ∀ entries zipBuf, zipFiles W [] certificates = .ok entries →
      W.zipClose entries = .ok zipBuf →
      EncryptAndZipCertificates W certificates publicKey = encryptZip W zipBuf publicKey := by
    intro entries zipBuf hz hc
    simp [EncryptAndZipCertificates, hz, hc]
  refine ⟨?_, ?_, ?_, ?_, ?_, ?_⟩
  · cases hz : zipFiles W [] certificates with
    | error e => exact Or.inr (hzipErr e hz)
    | ok entries =>
      cases hc : W.zipClose entries with
      | error e => exact Or.inr (hcloseErr entries e hz hc)
      | ok zipBuf =>
        rw [hafter entries zipBuf hz hc]
        rcases encryptZip_cases W zipBuf publicKey with ⟨_, bytes, _, _, _, _, h⟩ | ⟨h, _⟩
        · exact Or.inl ⟨bytes, h⟩
        · exact Or.inr h
  · intro h
    obtain ⟨err, herr⟩ := zipFiles_unreadable W certificates h []
    exact hzipErr err herr
  · rintro ⟨e, he⟩
    cases hz : zipFiles W [] certificates with
    | error e' => exact hzipErr e' hz
    | ok entries =>
      cases hc : W.zipClose entries with
      | error e' => exact hcloseErr entries e' hz hc
      | ok zipBuf =>
        rw [hafter entries zipBuf hz hc]
        exact ⟨_, by simp only [encryptZip, he]; rfl⟩
  · rintro ⟨e, he⟩
    exact hzipErr e he
  · rintro entries hz ⟨e, he⟩
    exact hcloseErr entries e hz he
  · intro entries zipBuf recipient hz hc hp hfail
    rw [hafter entries zipBuf hz hc]
    rcases encryptZip_cases W zipBuf publicKey with ⟨r, bytes, hp', h1, h2, h3, _⟩ | ⟨h, _⟩
    · rw [hp] at hp'
      cases hp'
      rcases hfail with hf | hf | ⟨e, hf⟩
      · exact absurd h1 hf
      · exact absurd h2 hf
      · rw [h3] at hf
        cases hf
    · exact h

/-! ## The certificate store scanner -/

theorem Contains_eq_false_iff (s substr : GoString) :
    Contains s substr = false ↔ ¬ substr <:+: s := by
  rw [← Contains_iff, Bool.not_eq_true]

/-- C12: for a readable file, `parseCertificateFile` classifies by the type of
the first PEM block alone. Type `CERTIFICATE` with a successful X.509 parse
gives a public certificate whose domains are the DNS names of the certificate
and whose expiration is its `NotAfter`; any other type that contains
`PRIVATE KEY` gives a private key with no domains and the zero expiration;
every other type, and data that does not decode as PEM, give an error and no
info. No info returned has the unknown file type. -/
theorem parseCertificateFile_classifies (W : World) (filePath data : GoString)
    (hread : W.ReadFile filePath = .ok data) :
    (∀ block cert, W.pemDecode data = some block → block.Type_ = str "CERTIFICATE" →
        W.ParseCertificate block.Bytes = .ok cert →
        parseCertificateFile W filePath
          = (some { Domains := cert.DNSNames, Expiration := cert.NotAfter,
                    FilePath := filePath,
                    FileType := FileType.FileTypePublicCertificate }, none))
      ∧ (∀ block, W.pemDecode data = some block → block.Type_ ≠ str "CERTIFICATE" →
          str "PRIVATE KEY" <:+: block.Type_ →
          parseCertificateFile W filePath
            = (some { Domains := [], Expiration := Time.zero, FilePath := filePath,
                      FileType := FileType.FileTypePrivateKey }, none))
      ∧ (∀ block, W.pemDecode data = some block → block.Type_ ≠ str "CERTIFICATE" →
          ¬ str "PRIVATE KEY" <:+: block.Type_ →
          ∃ err, parseCertificateFile W filePath = (none, some err))
      ∧ (W.pemDecode data = none → ∃ err, parseCertificateFile W filePath = (none, some err))
      ∧ (∀ info, (parseCertificateFile W filePath).1 = some info →
          info.FileType ≠ FileType.FileTypeUnknown) := by
  refine ⟨?_, ?_, ?_, ?_, ?_⟩
  · intro block cert hpem htype hcert
    simp only [parseCertificateFile, hread, hpem, htype, hcert, if_true]
  · intro block hpem htype hkey
    have hc : Contains block.Type_ (str "PRIVATE KEY") = true := (Contains_iff _ _).mpr hkey
    simp only [parseCertificateFile, hread, hpem, htype, hc, if_true, if_false]
  · intro block hpem htype hkey
    have hc : Contains block.Type_ (str "PRIVATE KEY") = false :=
      (Contains_eq_false_iff _ _).mpr hkey
    refine ⟨str "unhandled PEM block type: " ++ block.Type_, ?_⟩
    simp only [parseCertificateFile, hread, hpem, htype, hc, if_false, Bool.false_eq_true]
  · intro hpem
    refine ⟨str "failed to decode PEM block", ?_⟩
    simp only [parseCertificateFile, hread, hpem]
  · intro info hinfo
    simp only [parseCertificateFile, hread] at hinfo
    cases hpem : W.pemDecode data with
    | none => simp [hpem] at hinfo
    | some block =>
      simp only [hpem] at hinfo
      by_cases htype : block.Type_ = str "CERTIFICATE"
      · simp only [htype, if_true] at hinfo
        cases hcert : W.ParseCertificate block.Bytes with
        | error e => simp [hcert] at hinfo
        | ok cert =>
          simp only [hcert, Option.some.injEq] at hinfo
          rw [← hinfo]
          simp
      · simp only [htype, if_false] at hinfo
        by_cases hc : Contains block.Type_ (str "PRIVATE KEY") = true
        · simp only [hc, if_true, Option.some.injEq] at hinfo
          rw [← hinfo]
          simp
        · simp [hc] at hinfo

/-- Witness of C12 on the concrete world: the certificate file of `/certs`. -/
theorem parseCertificateFile_classifies_witness :
    parseCertificateFile demoWorld (str "/certs/cert.pem")
      = (some { Domains := [str "example.com"], Expiration := ⟨3⟩,
                FilePath := str "/certs/cert.pem",
                FileType := FileType.FileTypePublicCertificate }, none) :=
  (parseCertificateFile_classifies demoWorld (str "/certs/cert.pem") (str "Cexample.com")
    rfl).1 { Type_ := str "CERTIFICATE", Bytes := str "example.com" }
      { DNSNames := [str "example.com"], NotAfter := ⟨3⟩ } rfl rfl rfl

theorem foldl_loadFileStep (W : World) (dir : GoString) (files : List DirEntry)
    (acc : List CertificateInfo) :
    files.foldl (loadFileStep W dir) acc = acc ++ indexOf W dir files := by
  induction files generalizing acc with
  | nil => simp [indexOf]
  | cons file rest ih =>
    rw [List.foldl_cons, ih]
    unfold indexOf loadFileStep parsedFile
    by_cases hd : file.IsDir = true
    · simp [hd]
    · simp only [hd, Bool.false_eq_true, if_false, List.filterMap_cons]
      rcases hp : parseCertificateFile W (W.Join dir file.Name) with ⟨info, err⟩
      cases err with
      | some e => simp
      | none =>
        cases info with
        | none => simp
        | some i => simp

theorem foldl_loadDirStep (W : World) (directories : List GoString)
    (acc : List DirectoryCertificates) :
    directories.foldl (loadDirStep W) acc = acc ++ directories.filterMap (directoryIndex W) := by
  induction directories generalizing acc with
  | nil => simp
  | cons dir rest ih =>
    rw [List.foldl_cons, ih]
    unfold loadDirStep directoryIndex
    cases hr : W.ReadDir dir with
    | error e => simp [hr]
    | ok files => simp [hr, foldl_loadFileStep]

/-- C13: `LoadCertificates` returns, in input order, one index per readable
directory and nothing for an unreadable one; each index holds the
non-directory entries of the listing that parse successfully, in listing
order. A list of unreadable directories gives the empty result, and a
directory whose listing is two files that both parse gives an index of
length 2. -/
theorem LoadCertificates_eq_indices (W : World) (directories : List GoString) :
    LoadCertificates W directories = directories.filterMap (directoryIndex W)
      ∧ ((∀ dir ∈ directories, ∃ e, W.ReadDir dir = .error e) →
          LoadCertificates W directories = [])
      ∧ (∀ dir certFile keyFile certInfo keyInfo,
          W.ReadDir dir = .ok [certFile, keyFile] →
          certFile.IsDir = false → keyFile.IsDir = false →
          parseCertificateFile W (W.Join dir certFile.Name) = (some certInfo, none) →
          parseCertificateFile W (W.Join dir keyFile.Name) = (some keyInfo, none) →
          LoadCertificates W [dir] = [{ FilePath := dir, Certificates := [certInfo, keyInfo] }]) := by
  have hmain : ∀ dirs, LoadCertificates W dirs = dirs.filterMap (directoryIndex W) := by
    intro dirs
    unfold LoadCertificates
    rw [foldl_loadDirStep]
    simp
  refine ⟨hmain directories, ?_, ?_⟩
  · intro h
    rw [hmain]
    apply List.filterMap_eq_nil_iff.mpr
    intro dir hdir
    obtain ⟨e, he⟩ := h dir hdir
    simp [directoryIndex, he]
  · intro dir certFile keyFile certInfo keyInfo hr hc hk hpc hpk
    rw [hmain]
    simp [directoryIndex, hr, indexOf, parsedFile, hc, hk, hpc, hpk]

/-! ## The resolver: loose containment -/

theorem wildcard_implies_plain (d domain : GoString) (h : (str "*." ++ domain) <:+: d) :
    domain <:+: d :=
  (List.infix_append' (str "*.") domain []).trans (by simpa using h)

theorem DirMatch_iff_plain (dir : DirectoryCertificates) (domain : GoString) :
    DirMatch dir domain ↔ ∃ file ∈ dir.Certificates, ∃ d ∈ file.Domains, domain <:+: d := by
  constructor
  · rintro ⟨file, hfile, d, hd, h | h⟩
    · exact ⟨file, hfile, d, hd, h⟩
    · exact ⟨file, hfile, d, hd, wildcard_implies_plain d domain h⟩
  · rintro ⟨file, hfile, d, hd, h⟩
    exact ⟨file, hfile, d, hd, Or.inl h⟩

theorem FindCertificate_single (dir : DirectoryCertificates) (domain : GoString) :
    FindCertificate [dir] domain = if DirMatch dir domain then dir.Certificates else [] := by
  unfold FindCertificate
  rw [List.foldl_cons, List.foldl_nil, findStep_eq]
  simp

/-- Counterexample to C16 as stated: asked for `sub.example.com`, the resolver
does not match a directory whose certificate names `example.com`. -/
theorem FindCertificate_not_vice_versa :
    FindCertificate
      [{ FilePath := str "/certs",
         Certificates := [{ Domains := [str "example.com"], Expiration := ⟨3⟩,
                            FilePath := str "/certs/cert.pem",
                            FileType := FileType.FileTypePublicCertificate }] }]
      (str "sub.example.com") = [] := by
  decide

/-- C16, amended: the containment test is loose in one direction. Asked for
`example.com`, `FindCertificate` matches a directory that has a certificate
naming `sub.example.com` and returns all its files; asked for
`sub.example.com`, it does not match a directory whose certificates name only
`example.com`; and no certificate domain shorter than the requested domain
ever matches. -/
theorem FindCertificate_loose_one_direction :
    (∀ dir : DirectoryCertificates,
        (∃ file ∈ dir.Certificates, str "sub.example.com" ∈ file.Domains) →
        FindCertificate [dir] (str "example.com") = dir.Certificates)
      ∧ (∀ dir : DirectoryCertificates,
          (∀ file ∈ dir.Certificates, ∀ d ∈ file.Domains, d = str "example.com") →
          FindCertificate [dir] (str "sub.example.com") = [])
      ∧ (∀ (dir : DirectoryCertificates) (domain : GoString),
          (∀ file ∈ dir.Certificates, ∀ d ∈ file.Domains, d.length < domain.length) →
          FindCertificate [dir] domain = []) := by
  have hshort : ∀ (dir : DirectoryCertificates) (domain : GoString),
      (∀ file ∈ dir.Certificates, ∀ d ∈ file.Domains, d.length < domain.length) →
      FindCertificate [dir] domain = [] := by
    intro dir domain h
    rw [FindCertificate_single, if_neg]
    rw [DirMatch_iff_plain]
    rintro ⟨file, hfile, d, hd, hin⟩
    have := hin.length_le
    have := h file hfile d hd
    omega
  refine ⟨?_, ?_, hshort⟩
  · rintro dir ⟨file, hfile, hd⟩
    rw [FindCertificate_single, if_pos]
    exact ⟨file, hfile, _, hd, Or.inl (by decide)⟩
  · intro dir h
    apply hshort
    intro file hfile d hd
    rw [h file hfile d hd]
    decide

/-- C19: the wildcard disjunct of the match test is redundant. A certificate
domain that contains `"*."` followed by the requested domain contains the
requested domain; `FindCertificate` returns what the resolver that tests only
containment of the requested domain returns; and for the empty requested
domain it returns the files of every directory that has a file with at least
one domain. -/
theorem FindCertificate_eq_simple (dirs : List DirectoryCertificates) (domain : GoString) :
    (∀ d : GoString, (str "*." ++ domain) <:+: d → domain <:+: d)
      ∧ FindCertificate dirs domain = FindCertificateSimple dirs domain
      ∧ FindCertificate dirs []
          = ((dirs.filter (fun dir =>
                dir.Certificates.any (fun file => !file.Domains.isEmpty))).map
              (fun dir => dir.Certificates)).flatten := by
  have hfilter : ∀ (p q : DirectoryCertificates → Bool), (∀ dir, p dir = q dir) →
      dirs.filter p = dirs.filter q := by
    intro p q h
    have : p = q := funext h
    rw [this]
  refine ⟨fun d h => wildcard_implies_plain d domain h, ?_, ?_⟩
  · unfold FindCertificate FindCertificateSimple
    rw [foldl_findStep, List.nil_append]
    congr 2
    apply hfilter
    intro dir
    exact decide_eq_decide.mpr (DirMatch_iff_plain dir domain)
  · unfold FindCertificate
    rw [foldl_findStep, List.nil_append]
    congr 2
    apply hfilter
    intro dir
    rw [Bool.eq_iff_iff, decide_eq_true_iff, DirMatch_iff_plain, List.any_eq_true]
    constructor
    · rintro ⟨file, hfile, d, hd, _⟩
      refine ⟨file, hfile, ?_⟩
      cases hdom : file.Domains with
      | nil => rw [hdom] at hd; exact absurd hd (List.not_mem_nil _)
      | cons x xs => rfl
    · rintro ⟨file, hfile, hne⟩
      cases hdom : file.Domains with
      | nil => simp [hdom] at hne
      | cons x xs =>
        exact ⟨file, hfile, x, by simp [hdom], List.nil_infix⟩

/-! ## Release of certificate material -/

theorem encrypt_result_cases (W : World) (certificates : List CertificateInfo)
    (publicKey : GoString) (ct : Option GoString)
    (h : EncryptAndZipCertificates W certificates publicKey = (ct, none)) :
    ∃ bytes, ct = some bytes := by
  unfold EncryptAndZipCertificates at h
  cases hz : zipFiles W [] certificates with
  | error e => simp [hz] at h
  | ok entries =>
    cases hc : W.zipClose entries with
    | error e => simp [hz, hc] at h
    | ok zipBuf =>
      simp only [hz, hc] at h
      rcases encryptZip_cases W zipBuf publicKey with ⟨_, bytes, _, _, _, _, hb⟩ | ⟨⟨err, he⟩, _⟩
      · rw [hb] at h
        exact ⟨bytes, (Prod.mk.inj h).1.symm⟩
      · rw [he] at h
        exact absurd (Prod.mk.inj h).2 (by simp)

theorem status_200_parsed (W : World) (config : ServerModeConfig) (r : Request)
    (h200 : (handleCertificateRequest W config r).w.status = 200) :
    ∃ body req, r.Method = MethodPost ∧ r.Body = .ok body ∧ W.Unmarshal body = .ok req := by
  by_cases hm : r.Method = MethodPost
  · cases hb : r.Body with
    | error e =>
      exfalso
      simp only [handleCertificateRequest, hm, hb, ne_eq, not_true_eq_false, if_false] at h200
      rw [ResponseWriter.status_Error_fresh] at h200
      omega
    | ok body =>
      cases hj : W.Unmarshal body with
      | error e =>
        exfalso
        simp only [handleCertificateRequest, hm, hb, hj, ne_eq, not_true_eq_false, if_false]
          at h200
        rw [ResponseWriter.status_Error_fresh] at h200
        omega
      | ok req => exact ⟨body, req, hm, rfl, hj⟩
  · exfalso
    simp only [handleCertificateRequest, hm, ne_eq, not_false_eq_true, if_true] at h200
    rw [ResponseWriter.status_Error_fresh] at h200
    omega

theorem statusAfterParse_200 (W : World) (config : ServerModeConfig) (req : CertificateRequest)
    (h : statusAfterParse W config req = 200) :
    FindCertificate (LoadCertificates W config.ServerDetails.CertificateDirectory)
        req.Domain ≠ []
      ∧ req.AgePublicKey ∈ config.PublicAgeKeys := by
  unfold statusAfterParse at h
  cases hf : FindCertificate (LoadCertificates W config.ServerDetails.CertificateDirectory)
      req.Domain with
  | nil =>
    rw [hf] at h
    simp at h
  | cons first rest =>
    rw [hf] at h
    refine ⟨by simp, ?_⟩
    by_contra hkey
    simp only at h
    split at h
    · omega
    · omega

/-- C20: certificate material is released only to allow-listed keys. When the
handler responds 200, the request was a POST whose body was read and parsed,
its requester key equals an allow-list entry, the resolution result was
non-empty, and the bytes handed to the response writer begin with (and, when
the write reports no error, are) the ciphertext `EncryptAndZipCertificates`
returned for exactly the resolved files and exactly that requester key. -/
theorem handle_200_only_for_listed_key (W : World) (config : ServerModeConfig) (r : Request)
    (h200 : (handleCertificateRequest W config r).w.status = 200) :
    ∃ body req bytes,
      r.Method = MethodPost ∧ r.Body = .ok body ∧ W.Unmarshal body = .ok req
        ∧ (∃ allowedKey ∈ config.PublicAgeKeys, allowedKey = req.AgePublicKey)
        ∧ FindCertificate (LoadCertificates W config.ServerDetails.CertificateDirectory)
            req.Domain ≠ []
        ∧ EncryptAndZipCertificates W
            (FindCertificate (LoadCertificates W config.ServerDetails.CertificateDirectory)
              req.Domain) req.AgePublicKey = (some bytes, none)
        ∧ bytes <+: (handleCertificateRequest W config r).w.body
        ∧ (W.responseWrite bytes = none → (handleCertificateRequest W config r).w.body = bytes) := by
  obtain ⟨body, req, hm, hb, hj⟩ := status_200_parsed W config r h200
  have hs := status_after_parse W config r body req hm hb hj
  rw [h200] at hs
  obtain ⟨hne, hkey⟩ := statusAfterParse_200 W config req hs.symm
  obtain ⟨ct, hct, hpre, hfull⟩ := body_of_status_200 W config r body req hm hb hj h200
  obtain ⟨bytes, rfl⟩ := encrypt_result_cases W _ _ ct hct
  exact ⟨body, req, bytes, hm, hb, hj, ⟨_, hkey, rfl⟩, hne, hct, hpre, hfull⟩

/-- Witness of C20 on the concrete world: a request for `example.com` with the
allow-listed key and no known expiration is answered 200. -/
theorem handle_200_only_for_listed_key_witness :
    ∃ body req bytes,
      (post "example.com|age1k|").Method = MethodPost
        ∧ (post "example.com|age1k|").Body = .ok body ∧ demoWorld.Unmarshal body = .ok req
        ∧ (∃ allowedKey ∈ demoConfig.PublicAgeKeys, allowedKey = req.AgePublicKey)
        ∧ FindCertificate
            (LoadCertificates demoWorld demoConfig.ServerDetails.CertificateDirectory)
            req.Domain ≠ []
        ∧ EncryptAndZipCertificates demoWorld
            (FindCertificate
              (LoadCertificates demoWorld demoConfig.ServerDetails.CertificateDirectory)
              req.Domain) req.AgePublicKey = (some bytes, none)
        ∧ bytes <+: (handleCertificateRequest demoWorld demoConfig
            (post "example.com|age1k|")).w.body
        ∧ (demoWorld.responseWrite bytes = none →
            (handleCertificateRequest demoWorld demoConfig (post "example.com|age1k|")).w.body
              = bytes) :=
  handle_200_only_for_listed_key demoWorld demoConfig (post "example.com|age1k|") (by decide)

/-! ## The client: post-install commands -/

/-- The loop of `executeRenewCommands`, entered after `ran0`: either every
command succeeds and all are run, or the run ends with the first failing
command. -/
theorem renewLoop_cases (W : World) (commands ran0 : List GoString) :
    ((renewLoop W ran0 commands).err = none
        ∧ (renewLoop W ran0 commands).ran = ran0 ++ commands
        ∧ ∀ pre c post, commands = pre ++ c :: post →
            (W.CombinedOutput (ran0 ++ pre) c).2 = none)
      ∨ ∃ pre c post cause, commands = pre ++ c :: post
          ∧ (renewLoop W ran0 commands).ran = ran0 ++ pre ++ [c]
          ∧ (W.CombinedOutput (ran0 ++ pre) c).2 = some cause
          ∧ (renewLoop W ran0 commands).err
              = some (str "failed to execute command '" ++ c ++ str "': " ++ cause)
          ∧ ∀ pre1 c1 post1, pre = pre1 ++ c1 :: post1 →
              (W.CombinedOutput (ran0 ++ pre1) c1).2 = none := by
  induction commands generalizing ran0 with
  | nil =>
    left
    refine ⟨rfl, by simp [renewLoop], ?_⟩
    intro pre c post h
    simp at h
  | cons command rest ih =>
    rcases hout : W.CombinedOutput ran0 command with ⟨out, err⟩
    cases err with
    | some cause =>
      right
      refine ⟨[], command, rest, cause, rfl, ?_, ?_, ?_, ?_⟩
      · simp [renewLoop, hout]
      · simp [hout]
      · simp [renewLoop, hout]
      · intro pre1 c1 post1 h
        simp at h
    | none =>
      have hstep : renewLoop W ran0 (command :: rest) = renewLoop W (ran0 ++ [command]) rest := by
        simp [renewLoop, hout]
      rw [hstep]
      rcases ih (ran0 ++ [command]) with ⟨h1, h2, h3⟩ | ⟨pre, c, post, cause, h1, h2, h3, h4, h5⟩
      · left
        refine ⟨h1, by simpa using h2, ?_⟩
        intro pre c post h
        cases pre with
        | nil =>
          simp only [List.nil_append, List.cons.injEq] at h
          rw [← h.1]
          simp [hout]
        | cons p ps =>
          simp only [List.cons_append, List.cons.injEq] at h
          have := h3 ps c post h.2
          rw [← h.1]
          simpa using this
      · right
        refine ⟨command :: pre, c, post, cause, by simp [h1], by simpa using h2,
          by simpa using h3, h4, ?_⟩
        intro pre1 c1 post1 h
        cases pre1 with
        | nil =>
          simp only [List.nil_append, List.cons.injEq] at h
          rw [← h.1]
          simp [hout]
        | cons p ps =>
          simp only [List.cons_append, List.cons.injEq] at h
          have := h5 ps c1 post1 h.2
          rw [← h.1]
          simpa using this

/-- C15: `executeRenewCommands` runs the commands in list order and stops at
the first failure. Either no command fails, all are run and no error is
returned; or the commands run are exactly those up to and including the first
failing command, and the error returned names that command. -/
theorem executeRenewCommands_stops_at_first_failure (W : World) (commands : List GoString) :
    ((executeRenewCommands W commands).err = none
        ∧ (executeRenewCommands W commands).ran = commands
        ∧ ∀ pre c post, commands = pre ++ c :: post → (W.CombinedOutput pre c).2 = none)
      ∨ ∃ pre c post cause, commands = pre ++ c :: post
          ∧ (executeRenewCommands W commands).ran = pre ++ [c]
          ∧ (W.CombinedOutput pre c).2 = some cause
          ∧ (executeRenewCommands W commands).err
              = some (str "failed to execute command '" ++ c ++ str "': " ++ cause)
          ∧ ∀ pre1 c1 post1, pre = pre1 ++ c1 :: post1 →
              (W.CombinedOutput pre1 c1).2 = none := by
  have h := renewLoop_cases W commands []
  simpa [executeRenewCommands] using h

/-! ## Server configuration -/

theorem validateServerDetails_fst (W : World) (config : ServerModeConfig) :
    (validateServerDetails W config).1
      = if config.ServerDetails.ListenAddress.length = 0 then
          { config with ServerDetails :=
              { config.ServerDetails with ListenAddress := str "127.0.0.1" } }
        else config := by
  unfold validateServerDetails
  by_cases ha : config.ServerDetails.ListenAddress.length = 0
  · simp only [ha, if_true]
    split
    · rfl
    · split
      · rfl
      · split <;> rfl
  · simp only [ha, if_false]
    split
    · rfl
    · split
      · rfl
      · split <;> rfl

theorem validateServerDetails_snd (W : World) (config : ServerModeConfig) :
    (validateServerDetails W config).2
      = if config.ServerDetails.Port = 0 then some (str "server.port is not configured")
        else if config.ServerDetails.CertificateDirectory.length = 0 then
          some (str "at least one server.certificate_directories must be configured")
        else
          (config.ServerDetails.CertificateDirectory.find? (fun dir => W.StatNotExist dir)).map
            (fun dir => str "configured certificate directory does not exist: " ++ dir) := by
  unfold validateServerDetails
  by_cases ha : config.ServerDetails.ListenAddress.length = 0
  · simp only [ha, if_true]
    by_cases hp : config.ServerDetails.Port = 0
    · simp only [hp, if_true]
    · simp only [hp, if_false]
      by_cases hd : config.ServerDetails.CertificateDirectory.length = 0
      · simp only [hd, if_true]
      · simp only [hd, if_false]
        cases List.find? (fun dir => W.StatNotExist dir)
          config.ServerDetails.CertificateDirectory <;> rfl
  · simp only [ha, if_false]
    by_cases hp : config.ServerDetails.Port = 0
    · simp only [hp, if_true]
    · simp only [hp, if_false]
      by_cases hd : config.ServerDetails.CertificateDirectory.length = 0
      · simp only [hd, if_true]
      · simp only [hd, if_false]
        cases List.find? (fun dir => W.StatNotExist dir)
          config.ServerDetails.CertificateDirectory <;> rfl

theorem StatNotExist_iff (W : World) (path : GoString) :
    W.StatNotExist path = true ↔ W.Stat path = StatOutcome.notExist := by
  simp [World.StatNotExist]

/-- Counterexample to C18 as stated: the configured directory
`/certs/cert.pem/old` does not exist, as `/certs/cert.pem` is a regular file
and `os.Stat` fails with "not a directory"; port and directory list are
configured; yet `validateServerDetails` returns no error, so the error does
not follow from a configured directory that does not exist. -/
theorem validateServerDetails_accepts_missing_directory :
    (validateServerDetails demoWorld (serverConfig ["/certs/cert.pem/old"])).2 = none
      ∧ demoWorld.Stat (str "/certs/cert.pem/old") = StatOutcome.notDir
      ∧ ¬ ((validateServerDetails demoWorld (serverConfig ["/certs/cert.pem/old"])).2 ≠ none
          ↔ (serverConfig ["/certs/cert.pem/old"]).ServerDetails.Port = 0
            ∨ (serverConfig ["/certs/cert.pem/old"]).ServerDetails.CertificateDirectory = []
            ∨ ∃ dir ∈ (serverConfig ["/certs/cert.pem/old"]).ServerDetails.CertificateDirectory,
                Missing demoWorld dir) := by
  decide

/-- C18, amended: `validateServerDetails` returns an error if and only if the
port is zero, or no certificate directory is configured, or `os.Stat` of some
configured directory fails with the not-exist error ("no such file or
directory"); so an error that comes from a directory comes from one at which
nothing exists. When it succeeds the listen address is non-empty: it is
`127.0.0.1` when none was configured and the configured one otherwise; port,
directory list and allow-list are unchanged. -/
theorem validateServerDetails_error_iff (W : World) (config : ServerModeConfig) :
    ((validateServerDetails W config).2 ≠ none
        ↔ config.ServerDetails.Port = 0 ∨ config.ServerDetails.CertificateDirectory = []
          ∨ ∃ dir ∈ config.ServerDetails.CertificateDirectory,
              W.Stat dir = StatOutcome.notExist)
      ∧ ((validateServerDetails W config).2 ≠ none →
          config.ServerDetails.Port = 0 ∨ config.ServerDetails.CertificateDirectory = []
            ∨ ∃ dir ∈ config.ServerDetails.CertificateDirectory, Missing W dir)
      ∧ ((validateServerDetails W config).2 = none →
          (validateServerDetails W config).1.ServerDetails.ListenAddress ≠ []
            ∧ (config.ServerDetails.ListenAddress = [] →
                (validateServerDetails W config).1.ServerDetails.ListenAddress
                  = str "127.0.0.1")
            ∧ (config.ServerDetails.ListenAddress ≠ [] →
                (validateServerDetails W config).1.ServerDetails.ListenAddress
                  = config.ServerDetails.ListenAddress)
            ∧ (validateServerDetails W config).1.ServerDetails.Port
                = config.ServerDetails.Port
            ∧ (validateServerDetails W config).1.ServerDetails.CertificateDirectory
                = config.ServerDetails.CertificateDirectory
            ∧ (validateServerDetails W config).1.PublicAgeKeys = config.PublicAgeKeys) := by
  have hiff : (validateServerDetails W config).2 ≠ none
      ↔ config.ServerDetails.Port = 0 ∨ config.ServerDetails.CertificateDirectory = []
        ∨ ∃ dir ∈ config.ServerDetails.CertificateDirectory,
            W.Stat dir = StatOutcome.notExist := by
    rw [validateServerDetails_snd]
    by_cases hp : config.ServerDetails.Port = 0
    · simp [hp]
    · by_cases hd : config.ServerDetails.CertificateDirectory = []
      · simp [hp, hd]
      · have hlen : ¬ config.ServerDetails.CertificateDirectory.length = 0 := by
          simpa using hd
        simp only [hp, hlen, if_false, hd, false_or, ne_eq, Option.map_eq_none']
        rw [List.find?_eq_none]
        simp [StatNotExist_iff]
  refine ⟨hiff, ?_, ?_⟩
  · intro herr
    rcases hiff.mp herr with h | h | ⟨dir, hdir, hstat⟩
    · exact Or.inl h
    · exact Or.inr (Or.inl h)
    · exact Or.inr (Or.inr ⟨dir, hdir, Or.inl hstat⟩)
  · intro _
    rw [validateServerDetails_fst]
    by_cases ha : config.ServerDetails.ListenAddress = []
    · have hlen : config.ServerDetails.ListenAddress.length = 0 := by simp [ha]
      rw [if_pos hlen]
      exact ⟨by simp [str], fun _ => rfl, fun h => absurd ha h, rfl, rfl, rfl⟩
    · have hlen : ¬ config.ServerDetails.ListenAddress.length = 0 := by simpa using ha
      rw [if_neg hlen]
      exact ⟨ha, fun h => absurd h ha, fun _ => rfl, rfl, rfl, rfl⟩

/-! ## Client configuration -/

theorem HasPrefix_iff (s p : GoString) : HasPrefix s p = true ↔ p <+: s := by
  unfold HasPrefix
  exact List.isPrefixOf_iff_prefix

theorem HasSuffix_iff (s x : GoString) : HasSuffix s x = true ↔ x <:+ s := by
  unfold HasSuffix
  rw [List.isPrefixOf_iff_prefix, List.reverse_prefix]

theorem suffix_slash_iff (s : GoString) : str "/" <:+ s ↔ ∃ u, s = u ++ [47] := by
  constructor
  · rintro ⟨u, hu⟩
    exact ⟨u, hu.symm⟩
  · rintro ⟨u, rfl⟩
    exact ⟨u, rfl⟩

theorem suffix_slashes_iff (s : GoString) : str "//" <:+ s ↔ ∃ v, s = v ++ [47, 47] := by
  constructor
  · rintro ⟨v, hv⟩
    exact ⟨v, hv.symm⟩
  · rintro ⟨v, rfl⟩
    exact ⟨v, rfl⟩

/-- The configuration `validateConnectionDetails` leaves for a non-empty
server string. -/
theorem validateConnectionDetails_eq (config : ClientModeConfig)
    (hne : config.ConnectionDetails.Server ≠ []) :
    validateConnectionDetails config
      = (config.setServer (stripSlash (withScheme config.ConnectionDetails.Server)), none) := by
  obtain ⟨⟨server⟩, certs, keys⟩ := config
  simp only at hne
  unfold validateConnectionDetails
  simp only [hne, if_false]
  by_cases h1 : HasPrefix server (str "http://") = true
  · have hw : withScheme server = server := by
      simp [withScheme, (HasPrefix_iff _ _).mp h1]
    simp only [h1, if_true, hw]
    by_cases h3 : HasSuffix server (str "/") = true
    · simp [h3, stripSlash, (HasSuffix_iff _ _).mp h3, ClientModeConfig.setServer,
        List.dropLast_eq_take]
    · have h3' : ¬ str "/" <:+ server := fun h => h3 ((HasSuffix_iff _ _).mpr h)
      simp [h3, stripSlash, h3', ClientModeConfig.setServer]
  · have h1' : ¬ str "http://" <+: server := fun h => h1 ((HasPrefix_iff _ _).mpr h)
    by_cases h2 : HasPrefix server (str "https://") = true
    · have hw : withScheme server = server := by
        simp [withScheme, (HasPrefix_iff _ _).mp h2]
      simp only [h1, h2, Bool.not_true, if_false, hw, Bool.false_eq_true]
      by_cases h3 : HasSuffix server (str "/") = true
      · simp [h3, stripSlash, (HasSuffix_iff _ _).mp h3, ClientModeConfig.setServer,
          List.dropLast_eq_take]
      · have h3' : ¬ str "/" <:+ server := fun h => h3 ((HasSuffix_iff _ _).mpr h)
        simp [h3, stripSlash, h3', ClientModeConfig.setServer]
    · have h2' : ¬ str "https://" <+: server := fun h => h2 ((HasPrefix_iff _ _).mpr h)
      have hw : withScheme server = str "https://" ++ server := by
        simp [withScheme, h1', h2']
      simp only [h1, h2, Bool.not_false, if_true, hw, Bool.false_eq_true, if_false,
        ClientModeConfig.setServer]
      by_cases h3 : HasSuffix (str "https://" ++ server) (str "/") = true
      · simp [h3, stripSlash, (HasSuffix_iff _ _).mp h3, List.dropLast_eq_take]
      · have h3' : ¬ str "/" <:+ (str "https://" ++ server) :=
          fun h => h3 ((HasSuffix_iff _ _).mpr h)
        simp [h3, stripSlash, h3']

theorem withScheme_split (s : GoString) (hne : s ≠ [])
    (h1 : s ≠ str "http://") (h2 : s ≠ str "https://") :
    ∃ p t, (p = str "http://" ∨ p = str "https://") ∧ withScheme s = p ++ t ∧ t ≠ [] := by
  unfold withScheme
  by_cases ha : str "http://" <+: s
  · obtain ⟨t, ht⟩ := ha
    refine ⟨str "http://", t, Or.inl rfl, ?_, ?_⟩
    · rw [if_pos (Or.inl ⟨t, ht⟩), ht]
    · rintro rfl
      exact h1 (by simpa using ht.symm)
  · by_cases hb : str "https://" <+: s
    · obtain ⟨t, ht⟩ := hb
      refine ⟨str "https://", t, Or.inr rfl, ?_, ?_⟩
      · rw [if_pos (Or.inr ⟨t, ht⟩), ht]
      · rintro rfl
        exact h2 (by simpa using ht.symm)
    · refine ⟨str "https://", s, Or.inr rfl, ?_, hne⟩
      rw [if_neg (by simp [ha, hb])]

theorem stripSlash_keeps_scheme (s : GoString) (hne : s ≠ [])
    (h1 : s ≠ str "http://") (h2 : s ≠ str "https://") :
    str "http://" <+: stripSlash (withScheme s)
      ∨ str "https://" <+: stripSlash (withScheme s) := by
  obtain ⟨p, t, hp, hw, ht⟩ := withScheme_split s hne h1 h2
  have hpre : p <+: stripSlash (withScheme s) := by
    rw [hw]
    unfold stripSlash
    split
    · rw [List.dropLast_append_of_ne_nil p ht]
      exact List.prefix_append _ _
    · exact List.prefix_append _ _
  rcases hp with rfl | rfl
  · exact Or.inl hpre
  · exact Or.inr hpre

theorem concat_eq_concat {α : Type} (a b : List α) (x y : α) (h : a ++ [x] = b ++ [y]) :
    a = b ∧ x = y := by
  have := List.append_inj' h rfl
  exact ⟨this.1, by simpa using this.2⟩

theorem stripSlash_trailing (s : GoString) (hne : s ≠ [])
    (h : str "/" <:+ stripSlash (withScheme s)) :
    str "//" <:+ s ∨ s = str "/" := by
  unfold stripSlash at h
  by_cases hs : str "/" <:+ withScheme s
  · rw [if_pos hs] at h
    obtain ⟨u, hu⟩ := (suffix_slash_iff _).mp hs
    rw [hu, List.dropLast_concat] at h
    obtain ⟨v, hv⟩ := (suffix_slash_iff _).mp h
    have hw : withScheme s = v ++ [47, 47] := by
      rw [hu, hv]
      simp
    unfold withScheme at hw
    split at hw
    · exact Or.inl ((suffix_slashes_iff s).mpr ⟨v, hw⟩)
    · rcases List.eq_nil_or_concat s with rfl | ⟨L, b, rfl⟩
      · exact absurd rfl hne
      · rw [List.concat_eq_append] at hw ⊢
        have e1 : (str "https://" ++ L) ++ [b] = (v ++ [47]) ++ [47] := by
          rw [List.append_assoc, hw]
          simp
        obtain ⟨e2, rfl⟩ := concat_eq_concat _ _ _ _ e1
        rcases List.eq_nil_or_concat L with rfl | ⟨L1, b1, rfl⟩
        · exact Or.inr rfl
        · rw [List.concat_eq_append] at e2 ⊢
          have e3 : (str "https://" ++ L1) ++ [b1] = v ++ [47] := by
            rw [List.append_assoc, e2]
          obtain ⟨_, rfl⟩ := concat_eq_concat _ _ _ _ e3
          exact Or.inl ((suffix_slashes_iff _).mpr ⟨L1, by simp⟩)
  · rw [if_neg hs] at h
    exact absurd h hs

/-- Counterexample to C17 as stated: for the server string `example.com//`
the validation succeeds and leaves `https://example.com/`, which has a
trailing `/`; for the server string `http://` it succeeds and leaves
`http:/`, which begins with neither scheme. -/
theorem validateConnectionDetails_keeps_a_slash :
    validateConnectionDetails (clientConfig "example.com//")
        = (clientConfig "https://example.com/", none)
      ∧ str "/" <:+ (validateConnectionDetails
          (clientConfig "example.com//")).1.ConnectionDetails.Server
      ∧ validateConnectionDetails (clientConfig "http://") = (clientConfig "http:/", none)
      ∧ ¬ str "http://" <+: (validateConnectionDetails
          (clientConfig "http://")).1.ConnectionDetails.Server
      ∧ ¬ str "https://" <+: (validateConnectionDetails
          (clientConfig "http://")).1.ConnectionDetails.Server := by
  decide

/-- C17, amended: `validateConnectionDetails` fails, leaving the configuration
unchanged, exactly when the server string is empty. For a non-empty server
string it succeeds and leaves the string with `https://` put in front when it
begins with neither `http://` nor `https://`, and then without one trailing
`/` if it has one. That string begins with `http://` or `https://` unless
the configured string is exactly `http://` or `https://`, and it has no
trailing `/` unless the configured string ends in `//` or is `/`. -/
theorem validateConnectionDetails_normalises (config : ClientModeConfig) :
    ((validateConnectionDetails config).2 ≠ none ↔ config.ConnectionDetails.Server = [])
      ∧ (config.ConnectionDetails.Server = [] → (validateConnectionDetails config).1 = config)
      ∧ (config.ConnectionDetails.Server ≠ [] →
          validateConnectionDetails config
              = (config.setServer (stripSlash (withScheme config.ConnectionDetails.Server)),
                  none)
            ∧ (config.ConnectionDetails.Server ≠ str "http://" →
                config.ConnectionDetails.Server ≠ str "https://" →
                str "http://" <+: (validateConnectionDetails config).1.ConnectionDetails.Server
                  ∨ str "https://"
                      <+: (validateConnectionDetails config).1.ConnectionDetails.Server)
            ∧ (¬ str "//" <:+ config.ConnectionDetails.Server →
                config.ConnectionDetails.Server ≠ str "/" →
                ¬ str "/" <:+ (validateConnectionDetails config).1.ConnectionDetails.Server)) := by
  refine ⟨?_, ?_, ?_⟩
  · by_cases hne : config.ConnectionDetails.Server = []
    · simp [validateConnectionDetails, hne]
    · rw [validateConnectionDetails_eq config hne]
      simp [hne]
  · intro h
    simp [validateConnectionDetails, h]
  · intro hne
    have heq := validateConnectionDetails_eq config hne
    refine ⟨heq, ?_, ?_⟩
    · intro h1 h2
      rw [heq]
      exact stripSlash_keeps_scheme _ hne h1 h2
    · intro h1 h2 h
      rw [heq] at h
      rcases stripSlash_trailing _ hne h with h' | h'
      · exact h1 h'
      · exact h2 h'

/-! ## Paths -/

theorem splitSlash_ne_nil (s : GoString) : splitSlash s ≠ [] := by
  cases s with
  | nil => simp [splitSlash]
  | cons c cs =>
    unfold splitSlash
    split
    · simp
    · split <;> simp

theorem splitSlash_append (a b : GoString) :
    splitSlash (a ++ 47 :: b) = splitSlash a ++ splitSlash b := by
  induction a with
  | nil => simp [splitSlash]
  | cons c cs ih =>
    by_cases hc : c = 47
    · simp [splitSlash, hc, ih]
    · simp only [List.cons_append, splitSlash, hc, if_false]
      have ih1 : splitSlash (cs.append (47 :: b)) = splitSlash cs ++ splitSlash b := ih
      rw [ih1]
      cases hs : splitSlash cs with
      | nil => exact absurd hs (splitSlash_ne_nil cs)
      | cons e es => simp

theorem splitSlash_no_slash (s : GoString) : ∀ e ∈ splitSlash s, (47 : UInt8) ∉ e := by
  induction s with
  | nil => simp [splitSlash]
  | cons c cs ih =>
    by_cases hc : c = 47
    · simp only [splitSlash, hc, if_true, List.mem_cons]
      rintro e (rfl | he)
      · simp
      · exact ih e he
    · simp only [splitSlash, hc, if_false]
      cases hs : splitSlash cs with
      | nil => exact absurd hs (splitSlash_ne_nil cs)
      | cons e es =>
        rw [hs] at ih
        simp only [List.mem_cons]
        rintro x (rfl | hx)
        · have := ih e (List.mem_cons_self _ _)
          simp only [List.mem_cons, not_or]
          exact ⟨fun h => hc h.symm, this⟩
        · exact ih x (List.mem_cons_of_mem _ hx)

theorem splitSlash_of_no_slash (e : GoString) (h : (47 : UInt8) ∉ e) : splitSlash e = [e] := by
  induction e with
  | nil => rfl
  | cons c cs ih =>
    have hc : ¬ c = 47 := fun hc => h (by simp [hc])
    have hcs : (47 : UInt8) ∉ cs := fun hm => h (List.mem_cons_of_mem _ hm)
    simp [splitSlash, hc, ih hcs]

theorem intercalate_cons_cons (e e1 : GoString) (es : List GoString) :
    [47].intercalate (e :: e1 :: es) = e ++ 47 :: [47].intercalate (e1 :: es) := by
  simp [List.intercalate]

theorem splitSlash_intercalate (es : List GoString) (hne : es ≠ [])
    (h : ∀ e ∈ es, (47 : UInt8) ∉ e) : splitSlash ([47].intercalate es) = es := by
  induction es with
  | nil => exact absurd rfl hne
  | cons e rest ih =>
    cases rest with
    | nil =>
      have : [47].intercalate [e] = e := by simp [List.intercalate]
      rw [this]
      exact splitSlash_of_no_slash e (h e (List.mem_cons_self _ _))
    | cons e1 es =>
      rw [intercalate_cons_cons, splitSlash_append,
        splitSlash_of_no_slash e (h e (List.mem_cons_self _ _)),
        ih (by simp) (fun x hx => h x (List.mem_cons_of_mem _ hx))]
      rfl

/-- On elements other than `..`, `filepath.Clean` keeps the elements that are
neither empty nor `.`, in order. -/
theorem foldl_cleanStep_no_dotdot (rooted : Bool) (elems stack : List GoString)
    (h : str ".." ∉ elems) :
    elems.foldl (cleanStep rooted) stack = (elems.filter isKept).reverse ++ stack := by
  induction elems generalizing stack with
  | nil => simp
  | cons e rest ih =>
    have hrest : str ".." ∉ rest := fun hm => h (List.mem_cons_of_mem _ hm)
    have he : ¬ e = str ".." := fun heq => h (by simp [heq])
    rw [List.foldl_cons, ih _ hrest]
    by_cases hskip : e = [] ∨ e = str "."
    · have hk : isKept e = false := by
        simp only [isKept, decide_eq_false_iff_not]
        rcases hskip with h1 | h1 <;> simp [h1]
      rw [List.filter_cons_of_neg (by simp [hk])]
      simp [cleanStep, hskip]
    · have hk : isKept e = true := by
        simp only [isKept, decide_eq_true_eq]
        exact ⟨fun h1 => hskip (Or.inl h1), fun h1 => hskip (Or.inr h1)⟩
      rw [List.filter_cons_of_pos hk]
      simp [cleanStep, hskip, he]

theorem cleanStep_CleanStack (rooted : Bool) (stack : List GoString) (e : GoString)
    (he : (47 : UInt8) ∉ e) (h : CleanStack rooted stack) :
    CleanStack rooted (cleanStep rooted stack e) := by
  obtain ⟨k, names, rfl, hnames, hk⟩ := h
  unfold cleanStep
  by_cases hskip : e = [] ∨ e = str "."
  · rw [if_pos hskip]
    exact ⟨k, names, rfl, hnames, hk⟩
  · rw [if_neg hskip]
    by_cases hdd : e = str ".."
    · rw [if_pos hdd]
      cases names with
      | nil =>
        cases k with
        | zero =>
          cases rooted with
          | true => exact ⟨0, [], rfl, by simp, fun _ => rfl⟩
          | false => exact ⟨1, [], rfl, by simp, by simp⟩
        | succ j =>
          have hr : rooted = false := by
            cases rooted with
            | true => exact absurd (hk rfl) (by simp)
            | false => rfl
          subst hr
          refine ⟨j + 2, [], ?_, by simp, by simp⟩
          simp [List.replicate_succ]
      | cons n ns =>
        have hn : ¬ n = str ".." := (hnames n (List.mem_cons_self _ _)).2.2.1
        simp only [List.cons_append, hn, if_false]
        exact ⟨k, ns, rfl, fun x hx => hnames x (List.mem_cons_of_mem _ hx), hk⟩
    · rw [if_neg hdd]
      refine ⟨k, e :: names, rfl, ?_, hk⟩
      intro x hx
      rcases List.mem_cons.mp hx with rfl | hx
      · exact ⟨fun h1 => hskip (Or.inl h1), fun h1 => hskip (Or.inr h1), hdd, he⟩
      · exact hnames x hx

theorem foldl_cleanStep_CleanStack (rooted : Bool) (elems stack : List GoString)
    (he : ∀ e ∈ elems, (47 : UInt8) ∉ e) (h : CleanStack rooted stack) :
    CleanStack rooted (elems.foldl (cleanStep rooted) stack) := by
  induction elems generalizing stack with
  | nil => exact h
  | cons e rest ih =>
    rw [List.foldl_cons]
    exact ih _ (fun x hx => he x (List.mem_cons_of_mem _ hx))
      (cleanStep_CleanStack rooted stack e (he e (List.mem_cons_self _ _)) h)

theorem cleanElems_CleanStack (path : GoString) :
    CleanStack (isRooted path) (cleanElems path).reverse := by
  unfold cleanElems
  rw [List.reverse_reverse]
  exact foldl_cleanStep_CleanStack _ _ _ (splitSlash_no_slash path)
    ⟨0, [], rfl, by simp, fun _ => rfl⟩

theorem foldl_cleanStep_dotdots (j k : Nat) :
    (List.replicate k (str "..")).foldl (cleanStep false) (List.replicate j (str ".."))
      = List.replicate (j + k) (str "..") := by
  induction k generalizing j with
  | zero => simp
  | succ n ih =>
    rw [List.replicate_succ, List.foldl_cons]
    have hstep : cleanStep false (List.replicate j (str "..")) (str "..")
        = List.replicate (j + 1) (str "..") := by
      cases j with
      | zero => decide
      | succ i =>
        have hne : ¬ (str ".." = [] ∨ str ".." = str ".") := by decide
        simp only [cleanStep, List.replicate_succ, if_neg hne, if_true]
        simp
    rw [hstep, ih]
    congr 1
    omega

/-- Cleaning the elements of a cleaned path changes nothing. -/
theorem foldl_cleanStep_reverse (rooted : Bool) (stack : List GoString)
    (h : CleanStack rooted stack) :
    stack.reverse.foldl (cleanStep rooted) [] = stack := by
  obtain ⟨k, names, rfl, hnames, hk⟩ := h
  rw [List.reverse_append, List.reverse_replicate, List.foldl_append]
  have hdots : (List.replicate k (str "..")).foldl (cleanStep rooted) []
      = List.replicate k (str "..") := by
    cases rooted with
    | true =>
      rw [hk rfl]
      rfl
    | false =>
      have := foldl_cleanStep_dotdots 0 k
      simpa using this
  rw [hdots, foldl_cleanStep_no_dotdot]
  · have hall : names.reverse.filter isKept = names.reverse := by
      apply List.filter_eq_self.mpr
      intro e he
      have hn := hnames e (List.mem_reverse.mp he)
      simp only [isKept, decide_eq_true_eq]
      exact ⟨hn.1, hn.2.1⟩
    rw [hall, List.reverse_reverse]
  · intro hm
    exact (hnames _ (List.mem_reverse.mp hm)).2.2.1 rfl

theorem cleanElems_elem (path : GoString) :
    ∀ e ∈ cleanElems path, e ≠ [] ∧ (47 : UInt8) ∉ e := by
  obtain ⟨k, names, hs, hnames, _⟩ := cleanElems_CleanStack path
  intro e he
  have hmem : e ∈ names ++ List.replicate k (str "..") := by
    rw [← hs]
    exact List.mem_reverse.mpr he
  rcases List.mem_append.mp hmem with h | h
  · exact ⟨(hnames e h).1, (hnames e h).2.2.2⟩
  · rw [List.eq_of_mem_replicate h]
    decide

theorem cleanElems_foldl (path : GoString) :
    (cleanElems path).foldl (cleanStep (isRooted path)) [] = (cleanElems path).reverse := by
  have h := foldl_cleanStep_reverse (isRooted path) (cleanElems path).reverse
    (cleanElems_CleanStack path)
  rwa [List.reverse_reverse] at h

theorem isRooted_intercalate (es : List GoString) (hne : es ≠ [])
    (h : ∀ e ∈ es, e ≠ [] ∧ (47 : UInt8) ∉ e) : isRooted ([47].intercalate es) = false := by
  cases es with
  | nil => exact absurd rfl hne
  | cons e rest =>
    obtain ⟨he1, he2⟩ := h e (List.mem_cons_self _ _)
    cases e with
    | nil => exact absurd rfl he1
    | cons c cs =>
      have hc : ¬ c = 47 := fun hc => he2 (by simp [hc])
      cases rest with
      | nil => simp [List.intercalate, isRooted, hc]
      | cons e1 es1 =>
        rw [intercalate_cons_cons]
        simp [isRooted, hc]

theorem isRooted_Clean (path : GoString) : isRooted (Clean path) = isRooted path := by
  unfold Clean
  by_cases hp : path = []
  · subst hp
    decide
  · rw [if_neg hp]
    cases hr : isRooted path with
    | true => simp [isRooted]
    | false =>
      simp only [Bool.false_eq_true, if_false]
      by_cases he : cleanElems path = []
      · rw [if_pos he]
        decide
      · rw [if_neg he]
        exact isRooted_intercalate _ he (cleanElems_elem path)

/-- Cleaning a cleaned path gives the same elements. -/
theorem cleanElems_Clean (path : GoString) : cleanElems (Clean path) = cleanElems path := by
  have hroot := isRooted_Clean path
  have hfold := cleanElems_foldl path
  have hsplit : cleanElems path ≠ [] →
      splitSlash ([47].intercalate (cleanElems path)) = cleanElems path :=
    fun hne => splitSlash_intercalate _ hne (fun e he => (cleanElems_elem path e he).2)
  by_cases hp : path = []
  · subst hp
    decide
  · cases hr : isRooted path with
    | true =>
      have hc : Clean path = 47 :: [47].intercalate (cleanElems path) := by
        simp [Clean, hp, hr]
      rw [hr] at hroot hfold
      have hstep : cleanStep true [] [] = [] := by decide
      by_cases he : cleanElems path = []
      · rw [he] at hc ⊢
        rw [hc]
        decide
      · conv_lhs => rw [cleanElems, hroot, hc]
        have hs : splitSlash (47 :: [47].intercalate (cleanElems path))
            = [] :: cleanElems path := by
          rw [← hsplit he]
          simp [splitSlash, hsplit he]
        rw [hs, List.foldl_cons, hstep, hfold, List.reverse_reverse]
    | false =>
      rw [hr] at hroot hfold
      by_cases he : cleanElems path = []
      · have hc : Clean path = str "." := by
          simp [Clean, hp, hr, he]
        rw [hc, he]
        decide
      · have hc : Clean path = [47].intercalate (cleanElems path) := by
          simp [Clean, hp, hr, he]
        conv_lhs => rw [cleanElems, hroot, hc, hsplit he, hfold, List.reverse_reverse]

theorem cleanElems_join (dest name : GoString) (hd : dest ≠ [])
    (hname : str ".." ∉ splitSlash name) :
    isRooted (dest ++ 47 :: name) = isRooted dest
      ∧ cleanElems (dest ++ 47 :: name) = cleanElems dest ++ (splitSlash name).filter isKept := by
  have hroot : isRooted (dest ++ 47 :: name) = isRooted dest := by
    cases dest with
    | nil => exact absurd rfl hd
    | cons d ds => simp [isRooted]
  refine ⟨hroot, ?_⟩
  unfold cleanElems
  rw [hroot, splitSlash_append, List.foldl_append, foldl_cleanStep_no_dotdot _ _ _ hname]
  simp

/-- An entry name without a `..` element is joined to a path inside the
destination. -/
theorem Inside_Join (dest name : GoString) (hd : dest ≠ [])
    (hname : str ".." ∉ splitSlash name) : Inside dest (Join dest name) = true := by
  obtain ⟨hroot, helems⟩ := cleanElems_join dest name hd hname
  have hj : Join dest name = Clean (dest ++ 47 :: name) := by
    simp [Join, hd]
  unfold Inside
  rw [hj, isRooted_Clean, cleanElems_Clean, hroot, helems]
  have hno : str ".." ∉ (splitSlash name).filter isKept :=
    fun hm => hname (List.mem_of_mem_filter hm)
  simp [hno]

/-! ## The client: unpacking -/

/-- The calls made by the loop of `unzip`: those it started with, then a
prefix of the calls for the non-directory entries, all of them when no
error is returned. -/
theorem unzipLoop_ops (W : World) (dest : GoString) (files : List ZipFile) (ops : List FsOp) :
    ∃ tail, (unzipLoop W dest ops files).ops = ops ++ tail
      ∧ tail <+: (files.filter (fun f => !f.IsDir)).flatMap (entryOps dest)
      ∧ ((unzipLoop W dest ops files).err = none →
          tail = (files.filter (fun f => !f.IsDir)).flatMap (entryOps dest)) := by
  induction files generalizing ops with
  | nil => exact ⟨[], by simp [unzipLoop], by simp, fun _ => by simp⟩
  | cons f rest ih =>
    by_cases hdir : f.IsDir = true
    · have hstep : unzipLoop W dest ops (f :: rest) = unzipLoop W dest ops rest := by
        simp [unzipLoop, hdir]
      rw [hstep]
      simpa [List.filter_cons, hdir] using ih ops
    · have hfilter : (f :: rest).filter (fun f => !f.IsDir)
          = f :: rest.filter (fun f => !f.IsDir) := by
        simp [List.filter_cons, hdir]
      rw [hfilter, List.flatMap_cons]
      cases hmk : W.MkdirAll (Dir (Join dest f.Name)) with
      | some e =>
        refine ⟨[FsOp.MkdirAll (Dir (Join dest f.Name))], ?_, ?_, ?_⟩
        · simp [unzipLoop, hdir, hmk]
        · exact ⟨_, by simp [entryOps]; rfl⟩
        · intro h
          simp [unzipLoop, hdir, hmk] at h
      | none =>
        cases hop : W.OpenFile (Join dest f.Name) with
        | some e =>
          refine ⟨[FsOp.MkdirAll (Dir (Join dest f.Name)), FsOp.OpenFile (Join dest f.Name)],
            ?_, ?_, ?_⟩
          · simp [unzipLoop, hdir, hmk, hop]
          · exact ⟨_, by simp [entryOps]; rfl⟩
          · intro h
            simp [unzipLoop, hdir, hmk, hop] at h
        | none =>
          cases hct : f.Content with
          | error e =>
            refine ⟨[FsOp.MkdirAll (Dir (Join dest f.Name)),
              FsOp.OpenFile (Join dest f.Name)], ?_, ?_, ?_⟩
            · simp [unzipLoop, hdir, hmk, hop, hct]
            · exact ⟨_, by simp [entryOps, hct]; rfl⟩
            · intro h
              simp [unzipLoop, hdir, hmk, hop, hct] at h
          | ok data =>
            obtain ⟨tail, h1, h2, h3⟩ := ih (ops ++ [FsOp.MkdirAll (Dir (Join dest f.Name))]
              ++ [FsOp.OpenFile (Join dest f.Name)] ++ [FsOp.Write (Join dest f.Name) data])
            have hstep : unzipLoop W dest ops (f :: rest)
                = unzipLoop W dest (ops ++ [FsOp.MkdirAll (Dir (Join dest f.Name))]
                    ++ [FsOp.OpenFile (Join dest f.Name)]
                    ++ [FsOp.Write (Join dest f.Name) data]) rest := by
              simp [unzipLoop, hdir, hmk, hop, hct]
            have hentry : entryOps dest f
                = [FsOp.MkdirAll (Dir (Join dest f.Name)), FsOp.OpenFile (Join dest f.Name),
                    FsOp.Write (Join dest f.Name) data] := by
              simp [entryOps, hct]
            rw [hstep, hentry]
            refine ⟨[FsOp.MkdirAll (Dir (Join dest f.Name)), FsOp.OpenFile (Join dest f.Name),
              FsOp.Write (Join dest f.Name) data] ++ tail, ?_, ?_, ?_⟩
            · rw [h1]
              simp
            · exact (List.prefix_append_right_inj _).mpr h2
            · intro h
              rw [h3 h]

theorem mem_entryOps (dest : GoString) (f : ZipFile) (op : FsOp) (h : op ∈ entryOps dest f) :
    op = FsOp.MkdirAll (Dir (Join dest f.Name)) ∨ op = FsOp.OpenFile (Join dest f.Name)
      ∨ ∃ data, f.Content = .ok data ∧ op = FsOp.Write (Join dest f.Name) data := by
  unfold entryOps at h
  cases hc : f.Content with
  | error e =>
    simp only [hc, List.append_nil, List.mem_cons, List.mem_singleton, List.not_mem_nil,
      or_false] at h
    rcases h with h | h
    · exact Or.inl h
    · exact Or.inr (Or.inl h)
  | ok data =>
    simp only [hc, List.mem_append, List.mem_cons, List.mem_singleton, List.not_mem_nil,
      or_false] at h
    rcases h with (h | h) | h
    · exact Or.inl h
    · exact Or.inr (Or.inl h)
    · exact Or.inr (Or.inr ⟨data, rfl, h⟩)

/-- Counterexample to C14 as stated: for an archive with the entry
`../evil.pem` and the destination `/dest`, `unzip` opens and writes
`/evil.pem`, which does not lie inside `/dest`. -/
theorem unzip_escapes_destination :
    (unzip demoWorld (encEntries [{ Name := str "../evil.pem", Data := str "x" }])
        (str "/dest")).ops
        = [FsOp.MkdirAll (str "/dest"), FsOp.MkdirAll (str "/"),
            FsOp.OpenFile (str "/evil.pem"), FsOp.Write (str "/evil.pem") (str "x")]
      ∧ Inside (str "/dest") (str "/evil.pem") = false := by
  decide

/-- C14, amended: for an archive that is read and a non-empty destination, the
calls `unzip` makes are `MkdirAll` on the destination followed by a prefix
(all of it when no error is returned) of the calls for the non-directory
entries in archive order; every file it opens or writes is at
`filepath.Join` of the destination and the name of a non-directory entry, so
directory entries are never materialised; and that path lies inside the
destination whenever the entry name has no `..` element. -/
theorem unzip_writes_joined_paths (W : World) (data dest : GoString) (files : List ZipFile)
    (hr : W.zipNewReader data = .ok files) (hd : dest ≠ []) :
    (unzip W data dest).ops
        <+: FsOp.MkdirAll dest :: (files.filter (fun f => !f.IsDir)).flatMap (entryOps dest)
      ∧ ((unzip W data dest).err = none →
          (unzip W data dest).ops
            = FsOp.MkdirAll dest :: (files.filter (fun f => !f.IsDir)).flatMap (entryOps dest))
      ∧ (∀ path, (FsOp.OpenFile path ∈ (unzip W data dest).ops
            ∨ ∃ written, FsOp.Write path written ∈ (unzip W data dest).ops) →
          ∃ f ∈ files, f.IsDir = false ∧ path = Join dest f.Name)
      ∧ (∀ f ∈ files, str ".." ∉ splitSlash f.Name → Inside dest (Join dest f.Name) = true) := by
  have hops : (unzip W data dest).ops
      <+: FsOp.MkdirAll dest :: (files.filter (fun f => !f.IsDir)).flatMap (entryOps dest)
      ∧ ((unzip W data dest).err = none →
          (unzip W data dest).ops
            = FsOp.MkdirAll dest
                :: (files.filter (fun f => !f.IsDir)).flatMap (entryOps dest)) := by
    unfold unzip
    simp only [hr]
    cases hmk : W.MkdirAll dest with
    | some e =>
      simp only []
      exact ⟨⟨_, rfl⟩, fun h => by simp at h⟩
    | none =>
      simp only []
      obtain ⟨tail, h1, h2, h3⟩ := unzipLoop_ops W dest files [FsOp.MkdirAll dest]
      rw [h1]
      refine ⟨?_, ?_⟩
      · simpa using (List.prefix_append_right_inj [FsOp.MkdirAll dest]).mpr h2
      · intro h
        rw [h3 h]
        rfl
  refine ⟨hops.1, hops.2, ?_, ?_⟩
  · intro path hpath
    have hmem : ∀ op, op ∈ (unzip W data dest).ops →
        op = FsOp.MkdirAll dest ∨ ∃ f ∈ files, f.IsDir = false ∧ op ∈ entryOps dest f := by
      intro op hop
      have := hops.1.subset hop
      rcases List.mem_cons.mp this with h | h
      · exact Or.inl h
      · obtain ⟨f, hf, hin⟩ := List.mem_flatMap.mp h
        obtain ⟨hf1, hf2⟩ := List.mem_filter.mp hf
        exact Or.inr ⟨f, hf1, by simpa using hf2, hin⟩
    rcases hpath with hop | ⟨written, hop⟩
    · rcases hmem _ hop with h | ⟨f, hf, hnd, hin⟩
      · cases h
      · refine ⟨f, hf, hnd, ?_⟩
        rcases mem_entryOps dest f _ hin with h | h | ⟨_, _, h⟩
        · cases h
        · injection h
        · cases h
    · rcases hmem _ hop with h | ⟨f, hf, hnd, hin⟩
      · cases h
      · refine ⟨f, hf, hnd, ?_⟩
        rcases mem_entryOps dest f _ hin with h | h | ⟨_, _, h⟩
        · cases h
        · cases h
        · injection h
  · intro f _ hname
    exact Inside_Join dest f.Name hd hname

/-- Witness of C14, amended, on the concrete world: an archive with a file
entry and a directory entry, unpacked to `/dest`. -/
theorem unzip_writes_joined_paths_witness :
    (unzip demoWorld
        (encEntries [{ Name := str "live/cert.pem", Data := str "x" },
                     { Name := str "old/", Data := [] }]) (str "/dest")).ops
      = [FsOp.MkdirAll (str "/dest"), FsOp.MkdirAll (str "/dest/live"),
          FsOp.OpenFile (str "/dest/live/cert.pem"),
          FsOp.Write (str "/dest/live/cert.pem") (str "x")] :=
  ((unzip_writes_joined_paths demoWorld
      (encEntries [{ Name := str "live/cert.pem", Data := str "x" },
                   { Name := str "old/", Data := [] }]) (str "/dest")
      [{ Name := str "live/cert.pem", IsDir := false, Content := .ok (str "x") },
       { Name := str "old/", IsDir := true, Content := .ok [] }]
      rfl (by decide)).2.1 (by decide)).trans (by decide)
end Certdist
